import Mathlib

set_option maxRecDepth 40000

/-!
# Verification of the FIFO capital-gains engine (`src/app.py`)

Shallow embedding of the lot-accounting and tax engine of the repository:
`calculate_fifo_cost_basis`, `get_total_available`, `calculate_gain`,
`max_sellable_for_gain`, `calculate_tax`, `calculate_tax_with_buffer`,
`shares_for_target_revenue`, `plan_multi_year_sales`, `plan_full_extraction`.

Modelling decisions:
* Python floats are modelled as exact rationals (`ℚ`); the spec explicitly
  treats exact-cent/floating-point rounding as out of scope.
* A lot is a record `{date, quantity, price, remaining}`; the source keeps
  lots as dicts with an *optional* `remaining` key, so `remaining` is an
  `Option ℚ` here and reads of `lot.get('remaining', d)` become
  `(l.remaining).getD d`.
* `date` is only an opaque ordering key carried around; it is a `ℕ`.
* Python `int(x)` (truncation toward zero) is `pyInt`.
* The in-place mutation of the planners' working ledgers is modelled twice:
  by value (lists of records threaded through the recursion, used for the
  functional claims) and by an explicit heap of addressed records (used for
  the frame claim, where the distinction between the caller's records and
  the `lot.copy()` records made by the planner is what matters).
-/

/-- One purchase lot, as stored in the ledger (a Python dict in the source;
the `remaining` key is optional and defaults to `quantity` on read). -/
structure Lot where
  date : ℕ
  quantity : ℚ
  price : ℚ
  remaining : Option ℚ
  deriving DecidableEq, Repr

instance : Inhabited Lot := ⟨⟨0, 0, 0, none⟩⟩

/-- One breakdown record appended by `calculate_fifo_cost_basis`
(`{'date': ..., 'quantity': use, 'price': ...}`). -/
structure UsedLot where
  date : ℕ
  quantity : ℚ
  price : ℚ
  deriving DecidableEq, Repr

/-- `lot.get('remaining', lot['quantity'])` — the available units of a lot. -/
def availableOf (l : Lot) : ℚ := l.remaining.getD l.quantity

/-- Python's `int(x)`: truncation toward zero. -/
def pyInt (q : ℚ) : ℤ := if q < 0 then -⌊-q⌋ else ⌊q⌋

/-- `BASE_LIMIT = 10000` (app.py line 44). -/
def BASE_LIMIT : ℚ := 10000

/-- `BUFFER_ZONE = 1000` (app.py line 45). -/
def BUFFER_ZONE : ℚ := 1000

/-- `TAX_RATE = 0.10` (app.py line 46). -/
def TAX_RATE : ℚ := 1 / 10

/-- Loop body of `calculate_fifo_cost_basis` (app.py lines 113-136):
walk the lots accumulating cost and the breakdown; `rem` is the local
`remaining`-needed counter. -/
def fifoGo : List Lot → ℚ → ℚ → List UsedLot → Option ℚ × List UsedLot
  | [], rem, cost, acc => if 0 < rem then (none, []) else (some cost, acc)
  | l :: ls, rem, cost, acc =>
    if rem ≤ 0 then (some cost, acc)
    else
      let a := availableOf l
      if a ≤ 0 then fifoGo ls rem cost acc
      else
        let use := min rem a
        fifoGo ls (rem - use) (cost + use * l.price)
          (acc ++ [{ date := l.date, quantity := use, price := l.price }])

/-- `calculate_fifo_cost_basis(lots, quantity)` (app.py lines 108-136):
returns `(total_cost, lots_used)` or the failure signal `(None, [])`. -/
def calculate_fifo_cost_basis (lots : List Lot) (quantity : ℚ) :
    Option ℚ × List UsedLot :=
  fifoGo lots quantity 0 []

/-- `get_total_available(lots)` (app.py lines 139-141). -/
def get_total_available (lots : List Lot) : ℚ :=
  (lots.map availableOf).sum

/-- `calculate_gain(lots, quantity, sale_price)` (app.py lines 149-154);
`None` (resolver failure) propagates. -/
def calculate_gain (lots : List Lot) (quantity sale_price : ℚ) : Option ℚ :=
  match (calculate_fifo_cost_basis lots quantity).1 with
  | none => none
  | some cost => some (quantity * sale_price - cost)

/-- The mutable state of the binary search in `max_sellable_for_gain`
(app.py lines 172-174). -/
structure MSState where
  low : ℚ
  high : ℚ
  best_n : ℚ
  best_gain : ℚ
  deriving DecidableEq, Repr

/-- One iteration of the binary-search loop (app.py lines 176-192).  The
`break` once `high - low < 0.5` is modelled by making the remaining
iterations the identity. -/
def msStep (lots : List Lot) (sale_price target_gain : ℚ) (s : MSState) :
    MSState :=
  if s.high - s.low < 1 / 2 then s
  else
    let mid := (s.low + s.high) / 2
    match calculate_gain lots mid sale_price with
    | none => ⟨s.low, mid, s.best_n, s.best_gain⟩
    | some g =>
      if g ≤ target_gain then ⟨mid, s.high, mid, g⟩
      else ⟨s.low, mid, s.best_n, s.best_gain⟩

/-- The search part of `max_sellable_for_gain` (app.py lines 171-198):
100 bounded iterations, then truncate the best feasible bound to an
integer and recompute its exact gain when positive.  (The `getD` fallback
corresponds to a `None` from the recomputation, which cannot occur since
`best_n` never exceeds the total; Python would crash there.) -/
def msfgSearch (lots : List Lot) (sale_price target_gain total : ℚ) :
    ℤ × ℚ :=
  let s := (msStep lots sale_price target_gain)^[100] ⟨0, total, 0, 0⟩
  let bn := pyInt s.best_n
  (bn,
    if 0 < bn then (calculate_gain lots (bn : ℚ) sale_price).getD s.best_gain
    else s.best_gain)

/-- `max_sellable_for_gain(lots, sale_price, target_gain)` (app.py lines
157-198). -/
def max_sellable_for_gain (lots : List Lot) (sale_price target_gain : ℚ) :
    ℤ × ℚ :=
  let total := get_total_available lots
  if total = 0 then (0, 0)
  else
    match calculate_gain lots total sale_price with
    | some gain_all =>
      if gain_all ≤ target_gain then (pyInt total, gain_all)
      else msfgSearch lots sale_price target_gain total
    | none => msfgSearch lots sale_price target_gain total

/-- `calculate_tax(gain, yearly_limit)` (app.py lines 201-217):
returns `(taxable, tax)`. -/
def calculate_tax (gain yearly_limit : ℚ) : ℚ × ℚ :=
  if gain ≤ yearly_limit then (0, 0)
  else
    let taxable := gain - yearly_limit
    (taxable, taxable * TAX_RATE)

/-- `calculate_tax_with_buffer(gain, buffer_available)` (app.py lines
220-242): returns `(taxable, tax, buffer_used, buffer_remaining)`. -/
def calculate_tax_with_buffer (gain buffer_available : ℚ) : ℚ × ℚ × ℚ × ℚ :=
  if gain ≤ BASE_LIMIT then (0, 0, 0, buffer_available)
  else
    let excess := gain - BASE_LIMIT
    if excess ≤ buffer_available then (0, 0, excess, buffer_available - excess)
    else
      let taxable := excess
      let tax := taxable * TAX_RATE
      let buffer_remaining := if BUFFER_ZONE ≤ tax then 0 else BUFFER_ZONE - excess
      (taxable, tax, excess, max 0 buffer_remaining)

/-- `shares_for_target_revenue(lots, sale_price, target_revenue)` (app.py
lines 245-267): returns `(shares, actual_revenue, gain, cost_basis)`.
(`target_revenue / sale_price` with `sale_price = 0` is a
`ZeroDivisionError` in Python; in `ℚ` it is `0`; no theorem below uses a
zero sale price.) -/
def shares_for_target_revenue (lots : List Lot) (sale_price target_revenue : ℚ) :
    ℤ × ℚ × ℚ × ℚ :=
  let shares_needed : ℚ := target_revenue / sale_price
  let total_available := get_total_available lots
  let shares_needed := if shares_needed > total_available then total_available
    else shares_needed
  let shares : ℤ := pyInt shares_needed
  if shares ≤ 0 then (0, 0, 0, 0)
  else
    match (calculate_fifo_cost_basis lots (shares : ℚ)).1 with
    | none => (0, 0, 0, 0)
    | some cost =>
      let actual_revenue := (shares : ℚ) * sale_price
      (shares, actual_revenue, actual_revenue - cost, cost)

/-! ## The multi-year planners (app.py lines 282-485) -/

/-- One year's entry in a multi-year plan (the dict built at app.py lines
304-318 / 346-361 / 363-377, and likewise in `plan_full_extraction`).
The zero-activity entries do not carry a `cost_basis` key, hence the
`Option`. -/
structure PlanEntry where
  year : ℕ
  price : ℚ
  limit : ℚ
  units : ℤ
  revenue : ℚ
  cost_basis : Option ℚ
  gain : ℚ
  taxable : ℚ
  tax : ℚ
  net : ℚ
  remaining : ℚ
  cumulative_sold : ℤ
  cumulative_revenue : ℚ
  cumulative_tax : ℚ
  deriving DecidableEq, Repr

/-- `lot.copy()` followed by `if 'remaining' not in lot:
lot['remaining'] = lot['quantity']` (app.py lines 289-293 / 388-392). -/
def copyLot (l : Lot) : Lot :=
  { l with remaining := some (l.remaining.getD l.quantity) }

/-- The in-place selling loop of both planners (app.py lines 326-336 /
431-441), by value: consume `to_sell` units from the front, decrementing
each consumed lot's `remaining` (read with default `0` as in
`lot.get('remaining', 0)`), and accumulate the cost basis.  Returns the
accumulated cost and the updated working ledger. -/
def sellFromLots : List Lot → ℚ → ℚ → ℚ × List Lot
  | [], _, cost => (cost, [])
  | l :: ls, to_sell, cost =>
    if to_sell ≤ 0 then (cost, l :: ls)
    else
      let a := l.remaining.getD 0
      if a ≤ 0 then
        let r := sellFromLots ls to_sell cost
        (r.1, l :: r.2)
      else
        let use := min to_sell a
        let r := sellFromLots ls (to_sell - use) (cost + use * l.price)
        (r.1, { l with remaining := some (a - use) } :: r.2)

/-- The zero-activity plan entry (app.py lines 304-318 and 363-377; also
lines 403-417 and 469-483).  `rem` is `0` in the exhausted branch and the
untouched `available` in the `units == 0` branch. -/
def zeroEntry (year : ℕ) (price rem : ℚ) (ts : ℤ) (tr tt : ℚ) : PlanEntry :=
  { year := year, price := price, limit := BASE_LIMIT, units := 0,
    revenue := 0, cost_basis := none, gain := 0, taxable := 0, tax := 0,
    net := 0, remaining := rem, cumulative_sold := ts,
    cumulative_revenue := tr, cumulative_tax := tt }

instance : Inhabited PlanEntry := ⟨zeroEntry 0 0 0 0 0 0⟩

/-- The unit count a planner year chooses to sell: `int(available)` in the
final year of `plan_full_extraction`, the optimizer's unit count otherwise
(app.py lines 322, 420-427). -/
def plannedUnits (fe is_last : Bool) (working : List Lot) (current_price : ℚ) :
    ℤ :=
  if fe && is_last then pyInt (get_total_available working)
  else (max_sellable_for_gain working current_price BASE_LIMIT).1

/-- One iteration of the year loop shared by `plan_multi_year_sales`
(app.py lines 299-377) and `plan_full_extraction` (app.py lines 398-483);
the two source loops are identical except that with `fe = true` the last
year (`is_last`) sells `int(available)` outright and the year's gain is
recomputed as `revenue - cost_basis` instead of taken from the optimizer.
`year` is the 0-based year index and `(ts, tr, tt)` are the running
cumulative totals.  Returns the year's plan entry together with the
updated `(working, ts, tr, tt)` state. -/
def planYear (fe is_last : Bool) (sale_price price_increase : ℚ)
    (working : List Lot) (ts : ℤ) (tr tt : ℚ) (year : ℕ) :
    PlanEntry × List Lot × ℤ × ℚ × ℚ :=
  let current_price := sale_price * (1 + price_increase) ^ year
  let available := get_total_available working
  if available ≤ 0 then
    (zeroEntry (year + 1) current_price 0 ts tr tt, working, ts, tr, tt)
  else
    let mg := max_sellable_for_gain working current_price BASE_LIMIT
    let units : ℤ := plannedUnits fe is_last working current_price
    if 0 < units then
      let sold := sellFromLots working (units : ℚ) 0
      let cost_basis := sold.1
      let working' := sold.2
      let revenue := (units : ℚ) * current_price
      let gain := if fe then revenue - cost_basis else mg.2
      let t := calculate_tax gain BASE_LIMIT
      let net := revenue - t.2
      let ts' := ts + units
      let tr' := tr + revenue
      let tt' := tt + t.2
      ({ year := year + 1, price := current_price, limit := BASE_LIMIT,
          units := units, revenue := revenue, cost_basis := some cost_basis,
          gain := gain, taxable := t.1, tax := t.2, net := net,
          remaining := get_total_available working',
          cumulative_sold := ts', cumulative_revenue := tr',
          cumulative_tax := tt' }, working', ts', tr', tt')
    else
      (zeroEntry (year + 1) current_price available ts tr tt, working, ts, tr, tt)

/-- The year loop itself: `left` years still to simulate (`left = 1` means
the current year is the configured final year). -/
def planGo (fe : Bool) (sale_price price_increase : ℚ) :
    List Lot → ℤ → ℚ → ℚ → ℕ → ℕ → List PlanEntry
  | _, _, _, _, _, 0 => []
  | working, ts, tr, tt, year, left + 1 =>
    let r := planYear fe (left == 0) sale_price price_increase working ts tr tt year
    r.1 :: planGo fe sale_price price_increase r.2.1 r.2.2.1 r.2.2.2.1 r.2.2.2.2
      (year + 1) left

/-- `plan_multi_year_sales(lots, sale_price, years, price_increase)`
(app.py lines 282-379). -/
def plan_multi_year_sales (lots : List Lot) (sale_price : ℚ) (years : ℕ)
    (price_increase : ℚ) : List PlanEntry :=
  planGo false sale_price price_increase (lots.map copyLot) 0 0 0 0 years

/-- `plan_full_extraction(lots, sale_price, years, price_increase)`
(app.py lines 382-485). -/
def plan_full_extraction (lots : List Lot) (sale_price : ℚ) (years : ℕ)
    (price_increase : ℚ) : List PlanEntry :=
  planGo true sale_price price_increase (lots.map copyLot) 0 0 0 0 years

/-- A total-function version of the FIFO cost accumulation, used to state
what `fifoGo` computes on success. -/
def fifoCost : List Lot → ℚ → ℚ
  | [], _ => 0
  | l :: ls, rem =>
    if rem ≤ 0 then 0
    else
      let a := availableOf l
      if a ≤ 0 then fifoCost ls rem
      else min rem a * l.price + fifoCost ls (rem - min rem a)

/-! ## The binary-search invariant of `max_sellable_for_gain` -/

/-- Invariant of the search state: the bounds stay inside `[0, total]` and
the best candidate is either still the initial `(0, 0)` or a feasible
probe (its recorded gain is its true gain and is at most the target). -/
def MSInv (lots : List Lot) (sale_price target_gain total : ℚ)
    (s : MSState) : Prop :=
  0 ≤ s.low ∧ s.low ≤ s.high ∧ s.high ≤ total ∧
    0 ≤ s.best_n ∧ s.best_n ≤ total ∧
    ((s.best_n = 0 ∧ s.best_gain = 0) ∨
      (calculate_gain lots s.best_n sale_price = some s.best_gain ∧
        s.best_gain ≤ target_gain))

/-- The single-lot ledger `(qty 5 @ 3/4)` of the C1 counterexample. -/
def cexLots1 : List Lot := [⟨1, 5, 3/4, none⟩]

/-- The single-lot ledgers of the C4 counterexample. -/
def cexLots4a : List Lot := [⟨1, 1, 0, none⟩]

def cexLots4b : List Lot := [⟨1, 5/2, 0, none⟩]

/-- The two-lot ledger of the C5 counterexample: a cheap old lot followed
by a lot priced above the sale price. -/
def cexLots5 : List Lot := [⟨1, 1, 0, none⟩, ⟨2, 1, 100, none⟩]

/-! ## Working-ledger invariants of the planners -/

/-- After the copy step every working lot has an explicit, nonnegative
`remaining`. -/
def WFnn (w : List Lot) : Prop :=
  ∀ l ∈ w, ∃ r, l.remaining = some r ∧ 0 ≤ r

/-- Working ledgers whose remaining quantities are whole numbers. -/
def WFnat (w : List Lot) : Prop :=
  ∀ l ∈ w, ∃ k : ℕ, l.remaining = some (k : ℚ)

/-- A plan entry recording no activity: zero units, money and tax, nothing
remaining, with the given frozen cumulative totals. -/
def ZeroActivity (e : PlanEntry) (ts : ℤ) (tr tt : ℚ) : Prop :=
  e.units = 0 ∧ e.revenue = 0 ∧ e.gain = 0 ∧ e.taxable = 0 ∧ e.tax = 0 ∧
    e.net = 0 ∧ e.remaining = 0 ∧ e.cumulative_sold = ts ∧
    e.cumulative_revenue = tr ∧ e.cumulative_tax = tt

/-- The fractional one-lot ledger of the C8 counterexample. -/
def cexLots8 : List Lot := [⟨1, 1/2, 1, none⟩]

/-- The ledger of the C10 counterexample: all prices are at most the sale
price `60000`, but the growth rate `-9/10` drops year 2's price to
`6000`, below the second lot's price. -/
def cexLots10 : List Lot :=
  [⟨1, 2, 850, none⟩, ⟨2, 1, 6400, none⟩, ⟨3, 8, 4000, none⟩]

/-- The working copy the planner builds from `cexLots10`. -/
def cexWorking10 : List Lot :=
  [⟨1, 2, 850, some 2⟩, ⟨2, 1, 6400, some 1⟩, ⟨3, 8, 4000, some 8⟩]

/-! ## Heap model for the frame claim

The planners mutate lot dicts in place (`lot['remaining'] -= use`), but only
on the records created by `lot.copy()`.  To state that the caller's records
are untouched we re-run the planner over an explicit store: a `Heap` of lot
records addressed by index, where every read goes through `hread` and the
selling loop writes through `List.set` at the addresses it is handed.
`calculate_fifo_cost_basis` performs no write at all in the source (it only
reads lot fields and appends to a fresh local list), so its embedding is
heap-free. -/

abbrev Heap := List Lot

/-- Dereference the record at address `a`. -/
def hread (h : Heap) (a : ℕ) : Lot := h.getD a default

/-- The planners' in-place selling loop (app.py lines 326-336 / 431-441)
over the store: the working ledger is a list of addresses, and the only
writes are `lot['remaining'] -= use` at those addresses. -/
def sellFromLotsH : Heap → List ℕ → ℚ → ℚ → ℚ × Heap
  | h, [], _, cost => (cost, h)
  | h, a :: as, to_sell, cost =>
    if to_sell ≤ 0 then (cost, h)
    else
      let l := hread h a
      let av := l.remaining.getD 0
      if av ≤ 0 then sellFromLotsH h as to_sell cost
      else
        let use := min to_sell av
        sellFromLotsH (h.set a { l with remaining := some (av - use) }) as
          (to_sell - use) (cost + use * l.price)

/-- One planner year over the store: all reads of the working ledger go
through `hread`, writes happen only inside `sellFromLotsH`. -/
def planYearH (fe il : Bool) (sale_price price_increase : ℚ) (h : Heap)
    (waddrs : List ℕ) (ts : ℤ) (tr tt : ℚ) (year : ℕ) :
    PlanEntry × Heap × ℤ × ℚ × ℚ :=
  let working := waddrs.map (hread h)
  let current_price := sale_price * (1 + price_increase) ^ year
  let available := get_total_available working
  if available ≤ 0 then
    (zeroEntry (year + 1) current_price 0 ts tr tt, h, ts, tr, tt)
  else
    let mg := max_sellable_for_gain working current_price BASE_LIMIT
    let units : ℤ := plannedUnits fe il working current_price
    if 0 < units then
      let sold := sellFromLotsH h waddrs (units : ℚ) 0
      let cost_basis := sold.1
      let h' := sold.2
      let revenue := (units : ℚ) * current_price
      let gain := if fe then revenue - cost_basis else mg.2
      let t := calculate_tax gain BASE_LIMIT
      let net := revenue - t.2
      ({ year := year + 1, price := current_price, limit := BASE_LIMIT,
          units := units, revenue := revenue, cost_basis := some cost_basis,
          gain := gain, taxable := t.1, tax := t.2, net := net,
          remaining := get_total_available (waddrs.map (hread h')),
          cumulative_sold := ts + units, cumulative_revenue := tr + revenue,
          cumulative_tax := tt + t.2 }, h', ts + units, tr + revenue,
        tt + t.2)
    else
      (zeroEntry (year + 1) current_price available ts tr tt, h, ts, tr, tt)

/-- The planner year loop over the store. -/
def planGoH (fe : Bool) (sale_price price_increase : ℚ) :
    Heap → List ℕ → ℤ → ℚ → ℚ → ℕ → ℕ → List PlanEntry × Heap
  | h, _, _, _, _, _, 0 => ([], h)
  | h, w, ts, tr, tt, year, left + 1 =>
    let r := planYearH fe (left == 0) sale_price price_increase h w ts tr tt
      year
    let rest := planGoH fe sale_price price_increase r.2.1 w r.2.2.1
      r.2.2.2.1 r.2.2.2.2 (year + 1) left
    (r.1 :: rest.1, rest.2)

/-- `remaining_lots = [lot.copy() for lot in lots]` plus the
`lot['remaining'] = lot['quantity']` defaulting loop: allocate the copies at
fresh addresses at the end of the store and hand the planner those
addresses. -/
def copyAllocH (h : Heap) (addrs : List ℕ) : Heap × List ℕ :=
  (h ++ addrs.map (fun a => copyLot (hread h a)),
    List.range' h.length addrs.length)

/-- `plan_multi_year_sales` over the store: the caller's ledger is the list
of addresses `addrs` into `h`. -/
def plan_multi_year_salesH (h : Heap) (addrs : List ℕ) (sale_price : ℚ)
    (years : ℕ) (price_increase : ℚ) : List PlanEntry × Heap :=
  planGoH false sale_price price_increase (copyAllocH h addrs).1
    (copyAllocH h addrs).2 0 0 0 0 years

/-- `plan_full_extraction` over the store. -/
def plan_full_extractionH (h : Heap) (addrs : List ℕ) (sale_price : ℚ)
    (years : ℕ) (price_increase : ℚ) : List PlanEntry × Heap :=
  planGoH true sale_price price_increase (copyAllocH h addrs).1
    (copyAllocH h addrs).2 0 0 0 0 years

/-! ## Basic facts about `pyInt`, availability and `fifoGo` -/

theorem pyInt_nonneg {q : ℚ} (h : 0 ≤ q) : 0 ≤ pyInt q := by
  unfold pyInt
  rw [if_neg (not_lt.2 h)]
  exact Int.floor_nonneg.2 h

theorem pyInt_cast_le {q : ℚ} (h : 0 ≤ q) : (pyInt q : ℚ) ≤ q := by
  unfold pyInt
  rw [if_neg (not_lt.2 h)]
  exact Int.floor_le q

theorem pyInt_natCast (k : ℕ) : pyInt (k : ℚ) = (k : ℤ) := by
  unfold pyInt
  rw [if_neg (not_lt.2 (by positivity))]
  exact Int.floor_natCast k

theorem pyInt_nonpos {q : ℚ} (h : q ≤ 0) : pyInt q ≤ 0 := by
  unfold pyInt
  rcases lt_or_eq_of_le h with h' | h'
  · rw [if_pos h']
    simp only [neg_nonpos]
    exact Int.floor_nonneg.2 (by linarith)
  · subst h'
    norm_num

theorem get_total_available_nil : get_total_available [] = 0 := rfl

theorem get_total_available_cons (l : Lot) (ls : List Lot) :
    get_total_available (l :: ls) = availableOf l + get_total_available ls := by
  simp [get_total_available]

theorem get_total_available_nonneg {lots : List Lot}
    (h : ∀ l ∈ lots, 0 ≤ availableOf l) : 0 ≤ get_total_available lots := by
  induction lots with
  | nil => simp [get_total_available_nil]
  | cons l ls ih =>
    rw [get_total_available_cons]
    have h1 := h l (by simp)
    have h2 := ih (fun x hx => h x (by simp [hx]))
    linarith

/-- A `ℚ` with denominator 1 that is nonnegative is a natural number. -/
theorem rat_den_one_nonneg {q : ℚ} (h1 : q.den = 1) (h0 : 0 ≤ q) :
    ∃ k : ℕ, q = (k : ℚ) := by
  refine ⟨q.num.toNat, ?_⟩
  have hq : ((q.num : ℤ) : ℚ) = q := by
    rw [← Rat.den_eq_one_iff]
    exact h1
  have hn : 0 ≤ q.num := by
    rw [← Rat.num_nonneg] at h0
    exact h0
  rw [← hq]
  norm_cast
  exact (Int.toNat_of_nonneg hn).symm

theorem get_total_available_natCast {lots : List Lot}
    (h : ∀ l ∈ lots, (availableOf l).den = 1 ∧ 0 ≤ availableOf l) :
    ∃ K : ℕ, get_total_available lots = (K : ℚ) := by
  induction lots with
  | nil => exact ⟨0, by simp [get_total_available_nil]⟩
  | cons l ls ih =>
    obtain ⟨k, hk⟩ :=
      rat_den_one_nonneg (h l (by simp)).1 (h l (by simp)).2
    obtain ⟨K, hK⟩ := ih (fun x hx => h x (by simp [hx]))
    refine ⟨k + K, ?_⟩
    rw [get_total_available_cons, hk, hK]
    push_cast
    ring

theorem fifoCost_nonpos {lots : List Lot} {rem : ℚ} (h : rem ≤ 0) :
    fifoCost lots rem = 0 := by
  cases lots with
  | nil => rfl
  | cons l ls => simp [fifoCost, h]

theorem fifoCost_cons_skip {l : Lot} {ls : List Lot} {q : ℚ}
    (ha : availableOf l ≤ 0) : fifoCost (l :: ls) q = fifoCost ls q := by
  by_cases hq : q ≤ 0
  · rw [fifoCost_nonpos hq, fifoCost_nonpos hq]
  · simp [fifoCost, hq, ha]

theorem fifoCost_cons_take {l : Lot} {ls : List Lot} {q : ℚ}
    (ha : ¬ availableOf l ≤ 0) (hq : 0 ≤ q) :
    fifoCost (l :: ls) q =
      min q (availableOf l) * l.price + fifoCost ls (q - min q (availableOf l)) := by
  by_cases h0 : q ≤ 0
  · have hq0 : q = 0 := le_antisymm h0 hq
    subst hq0
    rw [fifoCost_nonpos le_rfl]
    rw [min_eq_left (le_of_lt (not_le.1 ha))]
    rw [fifoCost_nonpos (by simp)]
    ring
  · simp [fifoCost, h0, ha]

theorem fifoGo_isSome {lots : List Lot} (h : ∀ l ∈ lots, 0 ≤ availableOf l) :
    ∀ rem cost acc,
      (fifoGo lots rem cost acc).1.isSome ↔ rem ≤ get_total_available lots := by
  induction lots with
  | nil =>
    intro rem cost acc
    by_cases h0 : 0 < rem
    · simp [fifoGo, h0, get_total_available_nil, not_le.2 h0]
    · simp [fifoGo, h0, get_total_available_nil, not_lt.1 h0]
  | cons l ls ih =>
    intro rem cost acc
    have hl : 0 ≤ availableOf l := h l (by simp)
    have hls : ∀ x ∈ ls, 0 ≤ availableOf x := fun x hx => h x (by simp [hx])
    have htot : 0 ≤ get_total_available ls := get_total_available_nonneg hls
    rw [get_total_available_cons]
    by_cases h0 : rem ≤ 0
    · simp only [fifoGo, if_pos h0]
      simp only [Option.isSome_some, true_iff]
      linarith
    · simp only [fifoGo, if_neg h0]
      by_cases ha : availableOf l ≤ 0
      · have ha0 : availableOf l = 0 := le_antisymm ha hl
        rw [if_pos ha, ih hls rem cost acc, ha0]
        constructor <;> intro <;> linarith
      · rw [if_neg ha]
        rw [ih hls (rem - min rem (availableOf l)) _ _]
        have hrem : 0 < rem := not_le.1 h0
        have hap : 0 < availableOf l := not_le.1 ha
        rcases le_total rem (availableOf l) with hc | hc
        · rw [min_eq_left hc]
          constructor <;> intro <;> linarith
        · rw [min_eq_right hc]
          constructor <;> intro <;> linarith

theorem fifoGo_none_eq {lots : List Lot} :
    ∀ {rem cost acc}, (fifoGo lots rem cost acc).1 = none →
      fifoGo lots rem cost acc = (none, []) := by
  induction lots with
  | nil =>
    intro rem cost acc h
    by_cases h0 : 0 < rem
    · simp [fifoGo, h0]
    · simp [fifoGo, h0] at h
  | cons l ls ih =>
    intro rem cost acc h
    by_cases h0 : rem ≤ 0
    · simp [fifoGo, h0] at h
    · by_cases ha : availableOf l ≤ 0
      · simp only [fifoGo, if_neg h0, if_pos ha] at h ⊢
        exact ih h
      · simp only [fifoGo, if_neg h0, if_neg ha] at h ⊢
        exact ih h

theorem fifoGo_some_val {lots : List Lot} :
    ∀ {rem cost acc c},
      (fifoGo lots rem cost acc).1 = some c → c = cost + fifoCost lots rem := by
  induction lots with
  | nil =>
    intro rem cost acc c h
    by_cases h0 : 0 < rem
    · simp [fifoGo, h0] at h
    · simp only [fifoGo, if_neg h0] at h
      obtain rfl : cost = c := by simpa using h
      simp [fifoCost]
  | cons l ls ih =>
    intro rem cost acc c h
    by_cases h0 : rem ≤ 0
    · simp only [fifoGo, if_pos h0] at h
      obtain rfl : cost = c := by simpa using h
      rw [fifoCost_nonpos h0]
      ring
    · by_cases ha : availableOf l ≤ 0
      · simp only [fifoGo, if_neg h0, if_pos ha] at h
        rw [ih h, fifoCost_cons_skip ha]
      · simp only [fifoGo, if_neg h0, if_neg ha] at h
        rw [ih h, fifoCost_cons_take ha (by linarith [not_le.1 h0])]
        ring

theorem fifo_some_of_le {lots : List Lot} {q : ℚ}
    (h : ∀ l ∈ lots, 0 ≤ availableOf l) (hq : q ≤ get_total_available lots) :
    (calculate_fifo_cost_basis lots q).1 = some (fifoCost lots q) := by
  have hs : (calculate_fifo_cost_basis lots q).1.isSome :=
    (fifoGo_isSome h q 0 []).2 hq
  obtain ⟨c, hc⟩ := Option.isSome_iff_exists.1 hs
  have hval := fifoGo_some_val hc
  rw [zero_add] at hval
  rw [hc, hval]

theorem fifo_fail_of_gt {lots : List Lot} {q : ℚ}
    (h : ∀ l ∈ lots, 0 ≤ availableOf l) (hq : get_total_available lots < q) :
    calculate_fifo_cost_basis lots q = (none, []) := by
  have hs : ¬ (calculate_fifo_cost_basis lots q).1.isSome := by
    rw [calculate_fifo_cost_basis, fifoGo_isSome h q 0 []]
    exact not_le.2 hq
  exact fifoGo_none_eq (Option.not_isSome_iff_eq_none.1 hs)

theorem calculate_gain_eq {lots : List Lot} {q p : ℚ}
    (h : ∀ l ∈ lots, 0 ≤ availableOf l) (hq : q ≤ get_total_available lots) :
    calculate_gain lots q p = some (q * p - fifoCost lots q) := by
  rw [calculate_gain, fifo_some_of_le h hq]

/-- The FIFO cost of the extra units between `q1` and `q2` is at most
`(q2 - q1) * p` when every lot's unit price is at most `p`. -/
theorem fifoCost_lipschitz {p : ℚ} :
    ∀ {lots : List Lot} {q1 q2 : ℚ},
      (∀ l ∈ lots, 0 ≤ availableOf l) → (∀ l ∈ lots, l.price ≤ p) →
      0 ≤ q1 → q1 ≤ q2 → q2 ≤ get_total_available lots →
      fifoCost lots q2 - fifoCost lots q1 ≤ (q2 - q1) * p := by
  intro lots
  induction lots with
  | nil =>
    intro q1 q2 _ _ hq1 h12 hq2
    rw [get_total_available_nil] at hq2
    have e1 : q1 = 0 := le_antisymm (le_trans h12 hq2) hq1
    have e2 : q2 = 0 := le_antisymm hq2 (e1 ▸ h12)
    simp [e1, e2, fifoCost]
  | cons l ls ih =>
    intro q1 q2 hA hP hq1 h12 hq2
    have hl : 0 ≤ availableOf l := hA l (by simp)
    have hlsA : ∀ x ∈ ls, 0 ≤ availableOf x := fun x hx => hA x (by simp [hx])
    have hlsP : ∀ x ∈ ls, x.price ≤ p := fun x hx => hP x (by simp [hx])
    have htot : 0 ≤ get_total_available ls := get_total_available_nonneg hlsA
    rw [get_total_available_cons] at hq2
    by_cases ha : availableOf l ≤ 0
    · rw [fifoCost_cons_skip ha, fifoCost_cons_skip ha]
      have ha0 : availableOf l = 0 := le_antisymm ha hl
      exact ih hlsA hlsP hq1 h12 (by linarith)
    · have hap : 0 < availableOf l := not_le.1 ha
      have hq2' : 0 ≤ q2 := le_trans hq1 h12
      rw [fifoCost_cons_take ha hq1, fifoCost_cons_take ha hq2']
      set a := availableOf l with ha_def
      set u1 := min q1 a with hu1
      set u2 := min q2 a with hu2
      have hu12 : u1 ≤ u2 := min_le_min h12 le_rfl
      have hu1q : u1 ≤ q1 := min_le_left _ _
      have hu2q : u2 ≤ q2 := min_le_left _ _
      have hprice : l.price ≤ p := hP l (by simp)
      have h1' : 0 ≤ q1 - u1 := by linarith
      have h12' : q1 - u1 ≤ q2 - u2 := by
        rcases le_total q1 a with hc | hc
        · rw [hu1, min_eq_left hc]
          simp only [sub_self]
          linarith [min_le_left q2 a]
        · rw [hu1, min_eq_right hc, hu2,
            min_eq_right (le_trans hc h12)]
          linarith
      have h2' : q2 - u2 ≤ get_total_available ls := by
        rcases le_total q2 a with hc | hc
        · rw [hu2, min_eq_left hc]
          simpa using htot
        · rw [hu2, min_eq_right hc]
          linarith
      have hrec := ih hlsA hlsP h1' h12' h2'
      have hmul : (u2 - u1) * l.price ≤ (u2 - u1) * p :=
        mul_le_mul_of_nonneg_left hprice (by linarith)
      nlinarith [hrec, hmul]

theorem gain_val_mono {lots : List Lot} {p q1 q2 : ℚ}
    (hA : ∀ l ∈ lots, 0 ≤ availableOf l) (hP : ∀ l ∈ lots, l.price ≤ p)
    (hq1 : 0 ≤ q1) (h12 : q1 ≤ q2) (hq2 : q2 ≤ get_total_available lots) :
    q1 * p - fifoCost lots q1 ≤ q2 * p - fifoCost lots q2 := by
  have := fifoCost_lipschitz hA hP hq1 h12 hq2
  nlinarith [this]

theorem msStep_inv {lots : List Lot} {p t total : ℚ} {s : MSState}
    (h : MSInv lots p t total s) : MSInv lots p t total (msStep lots p t s) := by
  obtain ⟨h1, h2, h3, h4, h5, h6⟩ := h
  by_cases hw : s.high - s.low < 1 / 2
  · unfold msStep
    rw [if_pos hw]
    exact ⟨h1, h2, h3, h4, h5, h6⟩
  · have hmid1 : s.low ≤ (s.low + s.high) / 2 := by linarith
    have hmid2 : (s.low + s.high) / 2 ≤ s.high := by linarith
    rcases hg : calculate_gain lots ((s.low + s.high) / 2) p with _ | g
    · unfold msStep
      rw [if_neg hw]
      simp only [hg]
      exact ⟨h1, hmid1, le_trans hmid2 h3, h4, h5, h6⟩
    · by_cases hle : g ≤ t
      · unfold msStep
        rw [if_neg hw]
        simp only [hg, if_pos hle]
        exact ⟨le_trans h1 hmid1, hmid2, h3, le_trans h1 hmid1,
          le_trans hmid2 h3, Or.inr ⟨hg, hle⟩⟩
      · unfold msStep
        rw [if_neg hw]
        simp only [hg, if_neg hle]
        exact ⟨h1, hmid1, le_trans hmid2 h3, h4, h5, h6⟩

theorem msStep_iterate_inv {lots : List Lot} {p t total : ℚ} {s : MSState}
    (h : MSInv lots p t total s) :
    ∀ n, MSInv lots p t total ((msStep lots p t)^[n] s) := by
  intro n
  induction n with
  | zero => simpa using h
  | succ n ih =>
    rw [Function.iterate_succ_apply']
    exact msStep_inv ih

theorem msInv_initial {lots : List Lot} {p t total : ℚ} (htot : 0 ≤ total) :
    MSInv lots p t total ⟨0, total, 0, 0⟩ :=
  ⟨le_rfl, htot, le_rfl, le_rfl, htot, Or.inl ⟨rfl, rfl⟩⟩

theorem msfgSearch_bounds {lots : List Lot} {p t total : ℚ}
    (htot : 0 ≤ total) :
    0 ≤ (msfgSearch lots p t total).1 ∧
      ((msfgSearch lots p t total).1 : ℚ) ≤ total := by
  have hinv := msStep_iterate_inv (@msInv_initial lots p t _ htot) 100
  obtain ⟨_, _, _, h4, h5, _⟩ := hinv
  unfold msfgSearch
  refine ⟨pyInt_nonneg h4, ?_⟩
  exact le_trans (pyInt_cast_le h4) h5

theorem msfgSearch_feasible {lots : List Lot} {p t : ℚ}
    (hA : ∀ l ∈ lots, 0 ≤ availableOf l) (hP : ∀ l ∈ lots, l.price ≤ p)
    (hpos : 0 < (msfgSearch lots p t (get_total_available lots)).1) :
    calculate_gain lots
        ((msfgSearch lots p t (get_total_available lots)).1 : ℚ) p =
      some (msfgSearch lots p t (get_total_available lots)).2 ∧
      (msfgSearch lots p t (get_total_available lots)).2 ≤ t := by
  have htot : 0 ≤ get_total_available lots := get_total_available_nonneg hA
  have hinv := msStep_iterate_inv (@msInv_initial lots p t _ htot) 100
  set s := (msStep lots p t)^[100] (⟨0, get_total_available lots, 0, 0⟩ : MSState)
    with hs_def
  obtain ⟨_, _, _, h4, h5, h6⟩ := hinv
  have hbn_pos : 0 < pyInt s.best_n := by
    by_contra hcon
    unfold msfgSearch at hpos
    rw [← hs_def] at hpos
    exact hcon hpos
  have hfeas : calculate_gain lots s.best_n p = some s.best_gain ∧
      s.best_gain ≤ t := by
    rcases h6 with ⟨hz, _⟩ | hr
    · exfalso
      rw [hz] at hbn_pos
      have : pyInt 0 = 0 := by unfold pyInt; norm_num
      rw [this] at hbn_pos
      exact lt_irrefl 0 hbn_pos
    · exact hr
  have hbn_le : (pyInt s.best_n : ℚ) ≤ s.best_n := pyInt_cast_le h4
  have hbn_nonneg : (0 : ℚ) ≤ (pyInt s.best_n : ℚ) := by
    exact_mod_cast pyInt_nonneg h4
  have hbn_tot : (pyInt s.best_n : ℚ) ≤ get_total_available lots :=
    le_trans hbn_le h5
  have hgbn : calculate_gain lots (pyInt s.best_n : ℚ) p =
      some ((pyInt s.best_n : ℚ) * p - fifoCost lots (pyInt s.best_n : ℚ)) :=
    calculate_gain_eq hA hbn_tot
  have hgval : s.best_gain = s.best_n * p - fifoCost lots s.best_n := by
    have := calculate_gain_eq (q := s.best_n) (p := p) hA h5
    rw [hfeas.1] at this
    exact Option.some_injective _ this
  have hmono : (pyInt s.best_n : ℚ) * p - fifoCost lots (pyInt s.best_n : ℚ) ≤
      s.best_n * p - fifoCost lots s.best_n :=
    gain_val_mono hA hP hbn_nonneg hbn_le h5
  have hle_t : (pyInt s.best_n : ℚ) * p - fifoCost lots (pyInt s.best_n : ℚ) ≤ t := by
    rw [← hgval] at hmono
    exact le_trans hmono hfeas.2
  unfold msfgSearch
  rw [← hs_def]
  simp only [if_pos hbn_pos]
  rw [hgbn]
  exact ⟨rfl, hle_t⟩

/-- Without any price hypothesis: a positive truncated result of the search
is within the total, so its recomputed gain is its exact FIFO gain. -/
theorem msfgSearch_exact {lots : List Lot} {p t : ℚ}
    (hA : ∀ l ∈ lots, 0 ≤ availableOf l)
    (hpos : 0 < (msfgSearch lots p t (get_total_available lots)).1) :
    calculate_gain lots
        ((msfgSearch lots p t (get_total_available lots)).1 : ℚ) p =
      some (msfgSearch lots p t (get_total_available lots)).2 := by
  have htot : 0 ≤ get_total_available lots := get_total_available_nonneg hA
  have hinv := msStep_iterate_inv (@msInv_initial lots p t _ htot) 100
  set s := (msStep lots p t)^[100] (⟨0, get_total_available lots, 0, 0⟩ : MSState)
    with hs_def
  obtain ⟨_, _, _, h4, h5, _⟩ := hinv
  have hbn_pos : 0 < pyInt s.best_n := by
    by_contra hcon
    unfold msfgSearch at hpos
    rw [← hs_def] at hpos
    exact hcon hpos
  have hbn_tot : (pyInt s.best_n : ℚ) ≤ get_total_available lots :=
    le_trans (pyInt_cast_le h4) h5
  have hgbn := calculate_gain_eq (q := (pyInt s.best_n : ℚ)) (p := p) hA hbn_tot
  unfold msfgSearch
  rw [← hs_def]
  simp only [if_pos hbn_pos]
  rw [hgbn, Option.getD_some]

theorem msfg_of_total_zero {lots : List Lot} {p t : ℚ}
    (h : get_total_available lots = 0) :
    max_sellable_for_gain lots p t = (0, 0) := by
  unfold max_sellable_for_gain
  rw [if_pos h]

theorem msfg_eq_search_of_none {lots : List Lot} {p t : ℚ}
    (h0 : ¬ get_total_available lots = 0)
    (hg : calculate_gain lots (get_total_available lots) p = none) :
    max_sellable_for_gain lots p t =
      msfgSearch lots p t (get_total_available lots) := by
  unfold max_sellable_for_gain
  rw [if_neg h0]
  simp only [hg]

theorem msfg_eq_search_of_gt {lots : List Lot} {p t gall : ℚ}
    (h0 : ¬ get_total_available lots = 0)
    (hg : calculate_gain lots (get_total_available lots) p = some gall)
    (hgt : ¬ gall ≤ t) :
    max_sellable_for_gain lots p t =
      msfgSearch lots p t (get_total_available lots) := by
  unfold max_sellable_for_gain
  rw [if_neg h0]
  simp only [hg, if_neg hgt]

theorem msfg_eq_short_of_le {lots : List Lot} {p t gall : ℚ}
    (h0 : ¬ get_total_available lots = 0)
    (hg : calculate_gain lots (get_total_available lots) p = some gall)
    (hle : gall ≤ t) :
    max_sellable_for_gain lots p t = (pyInt (get_total_available lots), gall) := by
  unfold max_sellable_for_gain
  rw [if_neg h0]
  simp only [hg, if_pos hle]

theorem msfg_bounds {lots : List Lot} {p t : ℚ}
    (hA : ∀ l ∈ lots, 0 ≤ availableOf l) :
    0 ≤ (max_sellable_for_gain lots p t).1 ∧
      ((max_sellable_for_gain lots p t).1 : ℚ) ≤ get_total_available lots := by
  have htot : 0 ≤ get_total_available lots := get_total_available_nonneg hA
  by_cases h0 : get_total_available lots = 0
  · rw [msfg_of_total_zero h0]
    refine ⟨le_rfl, ?_⟩
    rw [h0]
    norm_num
  · rcases hg : calculate_gain lots (get_total_available lots) p with _ | gall
    · rw [msfg_eq_search_of_none h0 hg]
      exact msfgSearch_bounds htot
    · by_cases hle : gall ≤ t
      · rw [msfg_eq_short_of_le h0 hg hle]
        exact ⟨pyInt_nonneg htot, pyInt_cast_le htot⟩
      · rw [msfg_eq_search_of_gt h0 hg hle]
        exact msfgSearch_bounds htot

/-- If the optimizer returns a positive unit count and gain is monotone
(every lot's price at most the sale price), then the exact FIFO gain of the
returned unit count exists and does not exceed the target. -/
theorem msfg_feasible {lots : List Lot} {p t : ℚ}
    (hA : ∀ l ∈ lots, 0 ≤ availableOf l) (hP : ∀ l ∈ lots, l.price ≤ p)
    (hpos : 0 < (max_sellable_for_gain lots p t).1) :
    ∃ g', calculate_gain lots ((max_sellable_for_gain lots p t).1 : ℚ) p =
      some g' ∧ g' ≤ t := by
  have htot : 0 ≤ get_total_available lots := get_total_available_nonneg hA
  by_cases h0 : get_total_available lots = 0
  · rw [msfg_of_total_zero h0] at hpos
    exact absurd hpos (by norm_num)
  · rcases hg : calculate_gain lots (get_total_available lots) p with _ | gall
    · rw [msfg_eq_search_of_none h0 hg] at hpos ⊢
      obtain ⟨he, hle⟩ := msfgSearch_feasible hA hP hpos
      exact ⟨_, he, hle⟩
    · by_cases hle : gall ≤ t
      · rw [msfg_eq_short_of_le h0 hg hle] at hpos ⊢
        have hq1 : (0 : ℚ) ≤ (pyInt (get_total_available lots) : ℚ) := by
          exact_mod_cast pyInt_nonneg htot
        have hq2 : (pyInt (get_total_available lots) : ℚ) ≤
            get_total_available lots := pyInt_cast_le htot
        refine ⟨(pyInt (get_total_available lots) : ℚ) * p -
          fifoCost lots (pyInt (get_total_available lots) : ℚ),
          calculate_gain_eq hA hq2, ?_⟩
        have hgall : gall = get_total_available lots * p -
            fifoCost lots (get_total_available lots) := by
          have := calculate_gain_eq (q := get_total_available lots) (p := p)
            hA le_rfl
          rw [hg] at this
          exact Option.some_injective _ this
        have := gain_val_mono hA hP hq1 hq2 le_rfl
        rw [← hgall] at this
        exact le_trans this hle
      · rw [msfg_eq_search_of_gt h0 hg hle] at hpos ⊢
        obtain ⟨he, hle'⟩ := msfgSearch_feasible hA hP hpos
        exact ⟨_, he, hle'⟩

/-- Under monotone gain, the gain reported together with a positive unit
count never exceeds the target. -/
theorem msfg_snd_le_target {lots : List Lot} {p t : ℚ}
    (hA : ∀ l ∈ lots, 0 ≤ availableOf l) (hP : ∀ l ∈ lots, l.price ≤ p)
    (hpos : 0 < (max_sellable_for_gain lots p t).1) :
    (max_sellable_for_gain lots p t).2 ≤ t := by
  by_cases h0 : get_total_available lots = 0
  · rw [msfg_of_total_zero h0] at hpos
    exact absurd hpos (by norm_num)
  · rcases hg : calculate_gain lots (get_total_available lots) p with _ | gall
    · rw [msfg_eq_search_of_none h0 hg] at hpos ⊢
      exact (msfgSearch_feasible hA hP hpos).2
    · by_cases hle : gall ≤ t
      · rw [msfg_eq_short_of_le h0 hg hle]
        exact hle
      · rw [msfg_eq_search_of_gt h0 hg hle] at hpos ⊢
        exact (msfgSearch_feasible hA hP hpos).2

/-- When every lot's availability is a whole number, the gain returned with
a positive unit count is the exact FIFO gain of that unit count. -/
theorem msfg_exact {lots : List Lot} {p t : ℚ}
    (hI : ∀ l ∈ lots, (availableOf l).den = 1 ∧ 0 ≤ availableOf l)
    (hpos : 0 < (max_sellable_for_gain lots p t).1) :
    calculate_gain lots ((max_sellable_for_gain lots p t).1 : ℚ) p =
      some (max_sellable_for_gain lots p t).2 := by
  have hA : ∀ l ∈ lots, 0 ≤ availableOf l := fun l hl => (hI l hl).2
  have htot : 0 ≤ get_total_available lots := get_total_available_nonneg hA
  by_cases h0 : get_total_available lots = 0
  · rw [msfg_of_total_zero h0] at hpos
    exact absurd hpos (by norm_num)
  · rcases hg : calculate_gain lots (get_total_available lots) p with _ | gall
    · rw [msfg_eq_search_of_none h0 hg] at hpos ⊢
      exact msfgSearch_exact hA hpos
    · by_cases hle : gall ≤ t
      · rw [msfg_eq_short_of_le h0 hg hle]
        obtain ⟨K, hK⟩ := get_total_available_natCast hI
        have hcast : ((pyInt (get_total_available lots) : ℤ) : ℚ) =
            get_total_available lots := by
          rw [hK, pyInt_natCast]
          norm_cast
        rw [hcast]
        exact hg
      · rw [msfg_eq_search_of_gt h0 hg hle] at hpos ⊢
        exact msfgSearch_exact hA hpos

theorem fifo_nonpos {lots : List Lot} {q : ℚ} (hq : q ≤ 0) :
    calculate_fifo_cost_basis lots q = (some 0, []) := by
  cases lots with
  | nil =>
    simp [calculate_fifo_cost_basis, fifoGo, not_lt.2 hq]
  | cons l ls =>
    simp [calculate_fifo_cost_basis, fifoGo, hq]

theorem fifo_at_zero (lots : List Lot) :
    calculate_fifo_cost_basis lots 0 = (some 0, []) :=
  fifo_nonpos le_rfl

/-! ## Step-by-step evaluation helpers for the bounded search -/

theorem iterate_step {α : Type _} (f : α → α) (n : ℕ) {x y : α} (h : f x = y) :
    f^[n + 1] x = f^[n] y := by
  rw [Function.iterate_succ_apply, h]

/-- Once the interval is narrower than half a unit the loop has hit its
`break`: every further iteration is the identity. -/
theorem msStep_halt {lots : List Lot} {p t : ℚ} {s : MSState}
    (h : s.high - s.low < 1 / 2) : ∀ n, (msStep lots p t)^[n] s = s := by
  intro n
  induction n with
  | zero => rfl
  | succ n ih =>
    rw [Function.iterate_succ_apply]
    have hs : msStep lots p t s = s := by
      unfold msStep
      rw [if_pos h]
    rw [hs, ih]

/-! ## Claim theorems C1 - C7 -/

/-- C1 (corrected).  As stated — "`max_sellable_for_gain` returns the
unique largest integer `q` with FIFO gain at most the target, and
`gain(q+1) > target` whenever `q < totalAvailable`" — the claim is false
(see `C1_counterexample`).  What holds: the returned unit count is an
integer between `0` and the total available, and whenever every lot's unit
price is at most the sale price (the monotone-gain regime the spec itself
assumes) and the returned count is positive, the exact FIFO gain of
selling that count is at most the target; maximality can fail because the
bounded search truncates its last feasible midpoint. -/
theorem C1_optimizer_amended (lots : List Lot) (p t : ℚ)
    (hA : ∀ l ∈ lots, 0 ≤ availableOf l) :
    0 ≤ (max_sellable_for_gain lots p t).1 ∧
    ((max_sellable_for_gain lots p t).1 : ℚ) ≤ get_total_available lots ∧
    ((∀ l ∈ lots, l.price ≤ p) → 0 < (max_sellable_for_gain lots p t).1 →
      ∃ g', calculate_gain lots ((max_sellable_for_gain lots p t).1 : ℚ) p =
        some g' ∧ g' ≤ t) :=
  ⟨(msfg_bounds hA).1, (msfg_bounds hA).2,
    fun hP hpos => msfg_feasible hA hP hpos⟩

theorem C1_optimizer_amended_witness :
    0 ≤ (max_sellable_for_gain [⟨1, 10, 5, none⟩] 6 3).1 ∧
    ((max_sellable_for_gain [⟨1, 10, 5, none⟩] 6 3).1 : ℚ) ≤
      get_total_available [⟨1, 10, 5, none⟩] ∧
    ((∀ l ∈ [(⟨1, 10, 5, none⟩ : Lot)], l.price ≤ 6) →
      0 < (max_sellable_for_gain [⟨1, 10, 5, none⟩] 6 3).1 →
      ∃ g', calculate_gain [⟨1, 10, 5, none⟩]
          ((max_sellable_for_gain [⟨1, 10, 5, none⟩] 6 3).1 : ℚ) 6 =
        some g' ∧ g' ≤ 3) :=
  C1_optimizer_amended [⟨1, 10, 5, none⟩] 6 3 (by with_unfolding_all decide)

/-- C1 (counterexample).  On `cexLots1` at sale price `1` and target
`49/64` the optimizer returns `2` units, yet selling `3 ≤ totalAvailable`
units has gain `3/4 ≤ 49/64`: the returned count is not the largest
feasible integer and `gain(2+1) > target` fails.  (The binary search ends
with best feasible midpoint `45/16 = 2.8125`, truncated to `2`, while the
true crossing point is `49/16 = 3.0625`.) -/
theorem C1_counterexample :
    max_sellable_for_gain cexLots1 1 (49/64) = (2, 1/2) ∧
    calculate_gain cexLots1 3 1 = some (3/4) ∧
    ((3 : ℚ)/4 ≤ 49/64) ∧ ((2 : ℤ) < 3) ∧
    ((3 : ℚ) ≤ get_total_available cexLots1) := by
  refine ⟨?_, by with_unfolding_all decide, by norm_num, by norm_num,
    by with_unfolding_all decide⟩
  have h0 : get_total_available cexLots1 = 5 := by with_unfolding_all decide
  have hg : calculate_gain cexLots1 (get_total_available cexLots1) 1 =
      some (5/4) := by with_unfolding_all decide
  rw [msfg_eq_search_of_gt (by rw [h0]; norm_num) hg (by norm_num), h0]
  have h1 : msStep cexLots1 1 (49/64) ⟨0, 5, 0, 0⟩ = ⟨5/2, 5, 5/2, 5/8⟩ := by
    with_unfolding_all decide
  have h2 : msStep cexLots1 1 (49/64) ⟨5/2, 5, 5/2, 5/8⟩ =
      ⟨5/2, 15/4, 5/2, 5/8⟩ := by with_unfolding_all decide
  have h3 : msStep cexLots1 1 (49/64) ⟨5/2, 15/4, 5/2, 5/8⟩ =
      ⟨5/2, 25/8, 5/2, 5/8⟩ := by with_unfolding_all decide
  have h4 : msStep cexLots1 1 (49/64) ⟨5/2, 25/8, 5/2, 5/8⟩ =
      ⟨45/16, 25/8, 45/16, 45/64⟩ := by with_unfolding_all decide
  have hiter : (msStep cexLots1 1 (49/64))^[100] ⟨0, 5, 0, 0⟩ =
      ⟨45/16, 25/8, 45/16, 45/64⟩ :=
    calc (msStep cexLots1 1 (49/64))^[100] ⟨0, 5, 0, 0⟩
        = (msStep cexLots1 1 (49/64))^[99] ⟨5/2, 5, 5/2, 5/8⟩ :=
          iterate_step _ 99 h1
      _ = (msStep cexLots1 1 (49/64))^[98] ⟨5/2, 15/4, 5/2, 5/8⟩ :=
          iterate_step _ 98 h2
      _ = (msStep cexLots1 1 (49/64))^[97] ⟨5/2, 25/8, 5/2, 5/8⟩ :=
          iterate_step _ 97 h3
      _ = (msStep cexLots1 1 (49/64))^[96] ⟨45/16, 25/8, 45/16, 45/64⟩ :=
          iterate_step _ 96 h4
      _ = ⟨45/16, 25/8, 45/16, 45/64⟩ := msStep_halt (by norm_num) 96
  unfold msfgSearch
  rw [hiter]
  with_unfolding_all decide

/-- C2 (confirmed).  `calculate_fifo_cost_basis` succeeds exactly when the
quantity is at most the total remaining, never returns a partial cost on
failure (the failure signal is exactly `(None, [])`), resolves quantity `0`
to zero cost and an empty breakdown, and consumes lots in ledger order
oldest-first: on `[(d1,10,@5),(d2,10,@8)]` with `q = 15` it consumes all
10 of lot 1 and 5 of lot 2 for total cost `10*5 + 5*8 = 90`. -/
theorem C2_fifo_resolver (lots : List Lot) (q : ℚ)
    (hA : ∀ l ∈ lots, 0 ≤ availableOf l) (_hq : 0 ≤ q) :
    ((calculate_fifo_cost_basis lots q).1.isSome ↔
      q ≤ get_total_available lots) ∧
    (get_total_available lots < q →
      calculate_fifo_cost_basis lots q = (none, [])) ∧
    calculate_fifo_cost_basis lots 0 = (some 0, []) ∧
    calculate_fifo_cost_basis [⟨1, 10, 5, none⟩, ⟨2, 10, 8, none⟩] 15 =
      (some 90, [⟨1, 10, 5⟩, ⟨2, 5, 8⟩]) :=
  ⟨fifoGo_isSome hA q 0 [], fun h => fifo_fail_of_gt hA h,
    fifo_at_zero lots, by with_unfolding_all decide⟩

theorem C2_fifo_resolver_witness :
    ((calculate_fifo_cost_basis [⟨1, 10, 5, none⟩, ⟨2, 10, 8, none⟩] 15).1.isSome ↔
      (15 : ℚ) ≤ get_total_available [⟨1, 10, 5, none⟩, ⟨2, 10, 8, none⟩]) ∧
    (get_total_available [⟨1, 10, 5, none⟩, ⟨2, 10, 8, none⟩] < 15 →
      calculate_fifo_cost_basis [⟨1, 10, 5, none⟩, ⟨2, 10, 8, none⟩] 15 =
        (none, [])) ∧
    calculate_fifo_cost_basis [⟨1, 10, 5, none⟩, ⟨2, 10, 8, none⟩] 0 =
      (some 0, []) ∧
    calculate_fifo_cost_basis [⟨1, 10, 5, none⟩, ⟨2, 10, 8, none⟩] 15 =
      (some 90, [⟨1, 10, 5⟩, ⟨2, 5, 8⟩]) :=
  C2_fifo_resolver [⟨1, 10, 5, none⟩, ⟨2, 10, 8, none⟩] 15
    (by with_unfolding_all decide) (by norm_num)

/-- C3 (confirmed).  The simple tax rule: no taxable amount and no tax up
to the yearly limit, otherwise the taxable amount is the excess over the
limit and the tax is 10% of it; in particular
`calculate_tax 10000 10000 = (0,0)` and
`calculate_tax 10001 10000 = (1, 1/10)`. -/
theorem C3_tax_rule (gain limit : ℚ) :
    (gain ≤ limit → calculate_tax gain limit = (0, 0)) ∧
    (limit < gain →
      calculate_tax gain limit = (gain - limit, (gain - limit) * TAX_RATE)) ∧
    calculate_tax 10000 10000 = (0, 0) ∧
    calculate_tax 10001 10000 = (1, 1/10) := by
  refine ⟨fun h => ?_, fun h => ?_,
    by norm_num [calculate_tax, TAX_RATE],
    by norm_num [calculate_tax, TAX_RATE]⟩
  · unfold calculate_tax
    rw [if_pos h]
  · unfold calculate_tax
    rw [if_neg (not_le.2 h)]

theorem C3_tax_rule_witness :
    calculate_tax 10001 10000 = (10001 - 10000, (10001 - 10000) * TAX_RATE) :=
  (C3_tax_rule 10001 10000).2.1 (by norm_num)

/-- C4 (corrected).  As stated the claim is false: when the truncated best
probe is `0`, `actualGain` keeps the gain of a *fractional* probe instead
of the exact gain `0` of selling `0` units, and with a fractional total
the short-circuit pairs `int(total)` units with the gain of the fractional
total (see `C4_counterexample`).  What holds, for ledgers whose available
quantities are whole numbers: `maxUnits` is an integer with
`0 ≤ maxUnits ≤ totalAvailable`, an empty ledger gives `(0, 0)`, and
whenever `maxUnits > 0` the reported `actualGain` is the exact FIFO gain
of selling exactly `maxUnits` units. -/
theorem C4_result_guarantee (lots : List Lot) (p t : ℚ)
    (hI : ∀ l ∈ lots, (availableOf l).den = 1 ∧ 0 ≤ availableOf l) :
    0 ≤ (max_sellable_for_gain lots p t).1 ∧
    ((max_sellable_for_gain lots p t).1 : ℚ) ≤ get_total_available lots ∧
    (get_total_available lots = 0 → max_sellable_for_gain lots p t = (0, 0)) ∧
    (0 < (max_sellable_for_gain lots p t).1 →
      calculate_gain lots ((max_sellable_for_gain lots p t).1 : ℚ) p =
        some (max_sellable_for_gain lots p t).2) := by
  have hA : ∀ l ∈ lots, 0 ≤ availableOf l := fun l hl => (hI l hl).2
  exact ⟨(msfg_bounds hA).1, (msfg_bounds hA).2,
    fun h => msfg_of_total_zero h, fun h => msfg_exact hI h⟩

theorem C4_result_guarantee_witness :
    0 ≤ (max_sellable_for_gain [⟨1, 10, 5, none⟩] 6 3).1 ∧
    ((max_sellable_for_gain [⟨1, 10, 5, none⟩] 6 3).1 : ℚ) ≤
      get_total_available [⟨1, 10, 5, none⟩] ∧
    (get_total_available [⟨1, 10, 5, none⟩] = 0 →
      max_sellable_for_gain [⟨1, 10, 5, none⟩] 6 3 = (0, 0)) ∧
    (0 < (max_sellable_for_gain [⟨1, 10, 5, none⟩] 6 3).1 →
      calculate_gain [⟨1, 10, 5, none⟩]
          ((max_sellable_for_gain [⟨1, 10, 5, none⟩] 6 3).1 : ℚ) 6 =
        some (max_sellable_for_gain [⟨1, 10, 5, none⟩] 6 3).2) :=
  C4_result_guarantee [⟨1, 10, 5, none⟩] 6 3 (by with_unfolding_all decide)

/-- C4 (counterexample).  For `(qty 1 @ 0)`, sale price `1`, target `3/5`,
the optimizer returns `(0, 1/2)` although the exact FIFO gain of selling
`0` units is `0` (the `1/2` is the gain of the fractional probe at
`0.5`); and on the fractional ledger `(qty 5/2 @ 0)` at price `10` with
target `100` the short-circuit returns `(2, 25)` although the exact gain
of selling `2` units is `20`. -/
theorem C4_counterexample :
    max_sellable_for_gain cexLots4a 1 (3/5) = (0, 1/2) ∧
    calculate_gain cexLots4a 0 1 = some 0 ∧
    ((1 : ℚ)/2 ≠ 0) ∧
    max_sellable_for_gain cexLots4b 10 100 = (2, 25) ∧
    calculate_gain cexLots4b 2 10 = some 20 ∧
    ((25 : ℚ) ≠ 20) := by
  refine ⟨?_, by with_unfolding_all decide, by norm_num, ?_,
    by with_unfolding_all decide, by norm_num⟩
  · have h0 : get_total_available cexLots4a = 1 := by with_unfolding_all decide
    have hg : calculate_gain cexLots4a (get_total_available cexLots4a) 1 =
        some 1 := by with_unfolding_all decide
    rw [msfg_eq_search_of_gt (by rw [h0]; norm_num) hg (by norm_num), h0]
    have h1 : msStep cexLots4a 1 (3/5) ⟨0, 1, 0, 0⟩ =
        ⟨1/2, 1, 1/2, 1/2⟩ := by with_unfolding_all decide
    have h2 : msStep cexLots4a 1 (3/5) ⟨1/2, 1, 1/2, 1/2⟩ =
        ⟨1/2, 3/4, 1/2, 1/2⟩ := by with_unfolding_all decide
    have hiter : (msStep cexLots4a 1 (3/5))^[100] ⟨0, 1, 0, 0⟩ =
        ⟨1/2, 3/4, 1/2, 1/2⟩ :=
      calc (msStep cexLots4a 1 (3/5))^[100] ⟨0, 1, 0, 0⟩
          = (msStep cexLots4a 1 (3/5))^[99] ⟨1/2, 1, 1/2, 1/2⟩ :=
            iterate_step _ 99 h1
        _ = (msStep cexLots4a 1 (3/5))^[98] ⟨1/2, 3/4, 1/2, 1/2⟩ :=
            iterate_step _ 98 h2
        _ = ⟨1/2, 3/4, 1/2, 1/2⟩ := msStep_halt (by norm_num) 98
    unfold msfgSearch
    rw [hiter]
    with_unfolding_all decide
  · have h0 : ¬ get_total_available cexLots4b = 0 := by with_unfolding_all decide
    have hg : calculate_gain cexLots4b (get_total_available cexLots4b) 10 =
        some 25 := by with_unfolding_all decide
    rw [msfg_eq_short_of_le h0 hg (by norm_num)]
    with_unfolding_all decide

/-- C5 (corrected).  Unconditional monotonicity of the FIFO gain in the
quantity is false: a lot priced above the sale price makes the marginal
gain negative (see `C5_counterexample`).  Monotonicity does hold whenever
every lot's unit price is at most the sale price, which is the property
the Optimizer's binary search actually needs. -/
theorem C5_gain_monotone_amended (lots : List Lot) (p q1 q2 : ℚ)
    (hA : ∀ l ∈ lots, 0 ≤ availableOf l) (hP : ∀ l ∈ lots, l.price ≤ p)
    (h1 : 0 ≤ q1) (h12 : q1 < q2) (h2 : q2 ≤ get_total_available lots) :
    ∃ g1 g2, calculate_gain lots q1 p = some g1 ∧
      calculate_gain lots q2 p = some g2 ∧ g1 ≤ g2 :=
  ⟨_, _, calculate_gain_eq hA (le_trans (le_of_lt h12) h2),
    calculate_gain_eq hA h2,
    gain_val_mono hA hP h1 (le_of_lt h12) h2⟩

theorem C5_gain_monotone_amended_witness :
    ∃ g1 g2, calculate_gain [⟨1, 10, 5, none⟩] 2 6 = some g1 ∧
      calculate_gain [⟨1, 10, 5, none⟩] 5 6 = some g2 ∧ g1 ≤ g2 :=
  C5_gain_monotone_amended [⟨1, 10, 5, none⟩] 6 2 5
    (by with_unfolding_all decide) (by with_unfolding_all decide)
    (by norm_num) (by norm_num) (by with_unfolding_all decide)

/-- C5 (counterexample).  On `[(d1,1,@0),(d2,1,@100)]` at sale price `10`:
`gain(1) = 10` but `gain(2) = -80`, with `1 < 2 ≤ totalAvailable`, so gain
is not monotone in the quantity. -/
theorem C5_counterexample :
    calculate_gain cexLots5 1 10 = some 10 ∧
    calculate_gain cexLots5 2 10 = some (-80) ∧
    ((1 : ℚ) < 2) ∧
    ((2 : ℚ) ≤ get_total_available cexLots5) ∧
    ¬ ((10 : ℚ) ≤ -80) := by
  refine ⟨by with_unfolding_all decide, by with_unfolding_all decide,
    by norm_num, by with_unfolding_all decide, by norm_num⟩

/-- C6 (corrected).  The code has no `InvalidQuantity` rejection at all:
a non-positive quantity reaches the FIFO resolver and *succeeds* with cost
`0` and empty breakdown, `calculate_gain` then returns the numeric value
`q * price`, and `shares_for_target_revenue` silently returns the zero
tuple whenever the computed share count `target/price` is non-positive
(e.g. a negative price); nothing is rejected before resolution. -/
theorem C6_no_invalid_quantity_rejection (lots : List Lot) (p q t : ℚ)
    (hq : q ≤ 0) (ht : t / p ≤ 0) (htot : 0 ≤ get_total_available lots) :
    calculate_fifo_cost_basis lots q = (some 0, []) ∧
    calculate_gain lots q p = some (q * p) ∧
    shares_for_target_revenue lots p t = (0, 0, 0, 0) := by
  have hfifo := @fifo_nonpos lots _ hq
  refine ⟨hfifo, ?_, ?_⟩
  · have h1 : (calculate_fifo_cost_basis lots q).1 = some 0 := by rw [hfifo]
    unfold calculate_gain
    simp only [h1]
    rw [sub_zero]
  · have hng : ¬ (t / p > get_total_available lots) :=
      not_lt.2 (le_trans ht htot)
    have hsh : pyInt (t / p) ≤ 0 := pyInt_nonpos ht
    unfold shares_for_target_revenue
    simp only [if_neg hng, if_pos hsh]

theorem C6_no_invalid_quantity_rejection_witness :
    calculate_fifo_cost_basis [⟨1, 1, 5, none⟩] (-1) = (some 0, []) ∧
    calculate_gain [⟨1, 1, 5, none⟩] (-1) (-1) = some ((-1) * (-1)) ∧
    shares_for_target_revenue [⟨1, 1, 5, none⟩] (-1) 5 = (0, 0, 0, 0) :=
  C6_no_invalid_quantity_rejection [⟨1, 1, 5, none⟩] (-1) (-1) 5
    (by norm_num) (by norm_num) (by with_unfolding_all decide)

/-- C6 (counterexample).  With a non-positive quantity or price every
engine function returns a plain numeric result instead of rejecting the
input: `calculate_fifo_cost_basis` at quantity `-1` succeeds with
`(0, [])`, `calculate_gain` at quantity `-1` and price `5` returns `-5`,
and `shares_for_target_revenue` at price `-1` returns the zero tuple — no
error signal exists before (or instead of) resolution. -/
theorem C6_counterexample :
    calculate_fifo_cost_basis [⟨1, 1, 5, none⟩] (-1) = (some 0, []) ∧
    calculate_gain [⟨1, 1, 5, none⟩] (-1) 5 = some (-5) ∧
    shares_for_target_revenue [⟨1, 1, 5, none⟩] (-1) 5 = (0, 0, 0, 0) := by
  refine ⟨by with_unfolding_all decide, by with_unfolding_all decide,
    by with_unfolding_all decide⟩

/-- C7 (corrected).  The claim describes the buffered rule correctly
except in one spot: when the excess exceeds the available buffer and the
tax stays below the `1000` cap, the code returns
`max(0, 1000 - excess)` — clamped at zero — not the possibly negative
`1000 - excess` the claim states (see `C7_counterexample`). -/
theorem C7_buffered_tax_amended (gain buf : ℚ) :
    (gain ≤ BASE_LIMIT → calculate_tax_with_buffer gain buf = (0, 0, 0, buf)) ∧
    (BASE_LIMIT < gain → gain - BASE_LIMIT ≤ buf →
      calculate_tax_with_buffer gain buf =
        (0, 0, gain - BASE_LIMIT, buf - (gain - BASE_LIMIT))) ∧
    (BASE_LIMIT < gain → buf < gain - BASE_LIMIT →
      BUFFER_ZONE ≤ (gain - BASE_LIMIT) * TAX_RATE →
      calculate_tax_with_buffer gain buf =
        (gain - BASE_LIMIT, (gain - BASE_LIMIT) * TAX_RATE,
          gain - BASE_LIMIT, 0)) ∧
    (BASE_LIMIT < gain → buf < gain - BASE_LIMIT →
      (gain - BASE_LIMIT) * TAX_RATE < BUFFER_ZONE →
      calculate_tax_with_buffer gain buf =
        (gain - BASE_LIMIT, (gain - BASE_LIMIT) * TAX_RATE,
          gain - BASE_LIMIT, max 0 (BUFFER_ZONE - (gain - BASE_LIMIT)))) := by
  refine ⟨fun h => ?_, fun h h2 => ?_, fun h h2 h3 => ?_, fun h h2 h3 => ?_⟩
  · unfold calculate_tax_with_buffer
    rw [if_pos h]
  · unfold calculate_tax_with_buffer
    rw [if_neg (not_le.2 h)]
    simp only [if_pos h2]
  · unfold calculate_tax_with_buffer
    rw [if_neg (not_le.2 h)]
    simp only [if_neg (not_le.2 h2), if_pos h3]
    rw [max_self]
  · unfold calculate_tax_with_buffer
    rw [if_neg (not_le.2 h)]
    simp only [if_neg (not_le.2 h2), if_neg (not_le.2 h3)]

theorem C7_buffered_tax_amended_witness :
    calculate_tax_with_buffer 12000 1000 =
      (12000 - BASE_LIMIT, (12000 - BASE_LIMIT) * TAX_RATE,
        12000 - BASE_LIMIT, max 0 (BUFFER_ZONE - (12000 - BASE_LIMIT))) :=
  (C7_buffered_tax_amended 12000 1000).2.2.2
    (by norm_num [BASE_LIMIT]) (by norm_num [BASE_LIMIT])
    (by norm_num [BASE_LIMIT, BUFFER_ZONE, TAX_RATE])

/-- C7 (counterexample).  At `gain = 12000` with the full `1000` buffer
available: the excess `2000` exceeds the buffer, the tax `200` is below
the `1000` cap, and the code returns remaining buffer `0` — the clamp of
`1000 - 2000`, not the `1000 - 2000 = -1000` the claim prescribes for
this case. -/
theorem C7_counterexample :
    calculate_tax_with_buffer 12000 1000 = (2000, 200, 2000, 0) ∧
    (2000 : ℚ) * TAX_RATE < BUFFER_ZONE ∧
    BUFFER_ZONE - 2000 ≠ (0 : ℚ) := by
  refine ⟨?_, by norm_num [BUFFER_ZONE, TAX_RATE],
    by norm_num [BUFFER_ZONE]⟩
  norm_num [calculate_tax_with_buffer, BASE_LIMIT, BUFFER_ZONE, TAX_RATE,
    max_def]

theorem WFnat.toWFnn {w : List Lot} (h : WFnat w) : WFnn w := by
  intro l hl
  obtain ⟨k, hk⟩ := h l hl
  exact ⟨(k : ℚ), hk, by positivity⟩

theorem availableOf_eq_of_some {l : Lot} {r : ℚ} (h : l.remaining = some r) :
    availableOf l = r := by
  rw [availableOf, h, Option.getD_some]

theorem WFnn.avail_nonneg {w : List Lot} (h : WFnn w) :
    ∀ l ∈ w, 0 ≤ availableOf l := by
  intro l hl
  obtain ⟨r, hr, h0⟩ := h l hl
  rw [availableOf_eq_of_some hr]
  exact h0

theorem WFnat.total_natCast {w : List Lot} (h : WFnat w) :
    ∃ K : ℕ, get_total_available w = (K : ℚ) := by
  induction w with
  | nil => exact ⟨0, by simp [get_total_available_nil]⟩
  | cons l ls ih =>
    obtain ⟨k, hk⟩ := h l (by simp)
    obtain ⟨K, hK⟩ := ih (fun x hx => h x (by simp [hx]))
    refine ⟨k + K, ?_⟩
    rw [get_total_available_cons, availableOf_eq_of_some hk, hK]
    push_cast
    ring

theorem sellFromLots_prices (q c : ℚ) :
    ∀ w : List Lot,
      ((sellFromLots w q c).2).map (fun l => l.price) =
        w.map (fun l => l.price) := by
  intro w
  induction w generalizing q c with
  | nil => rfl
  | cons l ls ih =>
    unfold sellFromLots
    by_cases h0 : q ≤ 0
    · rw [if_pos h0]
    · rw [if_neg h0]
      by_cases ha : l.remaining.getD 0 ≤ 0
      · simp only [if_pos ha, List.map_cons]
        rw [ih]
      · simp only [if_neg ha, List.map_cons]
        rw [ih]

theorem sellFromLots_WFnn {q c : ℚ} :
    ∀ {w : List Lot}, WFnn w → WFnn (sellFromLots w q c).2 := by
  intro w
  induction w generalizing q c with
  | nil =>
    intro _
    intro l hl
    simp [sellFromLots] at hl
  | cons l ls ih =>
    intro hw
    obtain ⟨r, hr, hr0⟩ := hw l (by simp)
    have hls : WFnn ls := fun x hx => hw x (by simp [hx])
    unfold sellFromLots
    by_cases h0 : q ≤ 0
    · rw [if_pos h0]
      exact hw
    · rw [if_neg h0]
      by_cases ha : l.remaining.getD 0 ≤ 0
      · simp only [if_pos ha]
        intro x hx
        rcases List.mem_cons.1 hx with rfl | hx'
        · exact ⟨r, hr, hr0⟩
        · exact ih hls x hx'
      · simp only [if_neg ha]
        intro x hx
        rcases List.mem_cons.1 hx with rfl | hx'
        · refine ⟨l.remaining.getD 0 - min q (l.remaining.getD 0), rfl, ?_⟩
          have : min q (l.remaining.getD 0) ≤ l.remaining.getD 0 :=
            min_le_right _ _
          linarith
        · exact ih hls x hx'

theorem sellFromLots_WFnat :
    ∀ {w : List Lot}, WFnat w → ∀ {q c : ℚ}, (∃ m : ℕ, q = (m : ℚ)) →
      WFnat (sellFromLots w q c).2 := by
  intro w
  induction w with
  | nil =>
    intro _ q c _ l hl
    simp [sellFromLots] at hl
  | cons l ls ih =>
    intro hw q c hq
    obtain ⟨m, rfl⟩ := hq
    obtain ⟨k, hk⟩ := hw l (by simp)
    have hls : WFnat ls := fun x hx => hw x (by simp [hx])
    unfold sellFromLots
    by_cases h0 : (m : ℚ) ≤ 0
    · rw [if_pos h0]
      exact hw
    · rw [if_neg h0]
      by_cases ha : l.remaining.getD 0 ≤ 0
      · simp only [if_pos ha]
        intro x hx
        rcases List.mem_cons.1 hx with rfl | hx'
        · exact ⟨k, hk⟩
        · exact ih hls ⟨m, rfl⟩ x hx'
      · simp only [if_neg ha]
        have hgd : l.remaining.getD 0 = (k : ℚ) := by
          rw [hk, Option.getD_some]
        have hmin : min (m : ℚ) (l.remaining.getD 0) = ((min m k : ℕ) : ℚ) := by
          rw [hgd]
          push_cast
          rfl
        intro x hx
        rcases List.mem_cons.1 hx with rfl | hx'
        · refine ⟨k - min m k, ?_⟩
          simp only [hmin, hgd]
          rw [Nat.cast_sub (min_le_right m k), Nat.cast_min]
        · have hq' : ∃ m' : ℕ, (m : ℚ) - min (m : ℚ) (l.remaining.getD 0) =
              ((m' : ℕ) : ℚ) := by
            refine ⟨m - min m k, ?_⟩
            rw [hmin, ← Nat.cast_sub (min_le_left m k)]
          exact ih hls hq' x hx'

/-- Conservation: selling `q ≤ total` units from a well-formed working
ledger leaves exactly `total - q` units (spec §8, "Conservation"). -/
theorem sellFromLots_total :
    ∀ {w : List Lot}, WFnn w → ∀ {q c : ℚ}, 0 ≤ q →
      q ≤ get_total_available w →
      get_total_available (sellFromLots w q c).2 =
        get_total_available w - q := by
  intro w
  induction w with
  | nil =>
    intro _ q c hq0 hqt
    rw [get_total_available_nil] at hqt
    have hq : q = 0 := le_antisymm hqt hq0
    subst hq
    simp [sellFromLots, get_total_available_nil]
  | cons l ls ih =>
    intro hw q c hq0 hqt
    obtain ⟨r, hr, hr0⟩ := hw l (by simp)
    have hls : WFnn ls := fun x hx => hw x (by simp [hx])
    have htot_ls : 0 ≤ get_total_available ls :=
      get_total_available_nonneg (WFnn.avail_nonneg hls)
    have hgd : l.remaining.getD 0 = r := by rw [hr, Option.getD_some]
    have havail : availableOf l = r := availableOf_eq_of_some hr
    rw [get_total_available_cons, havail] at hqt ⊢
    unfold sellFromLots
    by_cases h0 : q ≤ 0
    · have hq : q = 0 := le_antisymm h0 hq0
      rw [if_pos h0]
      show get_total_available (l :: ls) = r + get_total_available ls - q
      rw [get_total_available_cons, havail, hq]
      ring
    · rw [if_neg h0]
      by_cases ha : l.remaining.getD 0 ≤ 0
      · have hr_eq : r = 0 := le_antisymm (hgd ▸ ha) hr0
        simp only [if_pos ha]
        show get_total_available (l :: (sellFromLots ls q c).2) =
          r + get_total_available ls - q
        rw [get_total_available_cons, havail, hr_eq,
          ih hls hq0 (by rw [hr_eq] at hqt; linarith)]
        ring
      · simp only [if_neg ha]
        show get_total_available
            ({ l with remaining := some (l.remaining.getD 0 -
                min q (l.remaining.getD 0)) } ::
              (sellFromLots ls (q - min q (l.remaining.getD 0))
                (c + min q (l.remaining.getD 0) * l.price)).2) =
          r + get_total_available ls - q
        rw [get_total_available_cons]
        have hav2 : availableOf
            { l with remaining := some (l.remaining.getD 0 -
                min q (l.remaining.getD 0)) } =
            r - min q r := by
          rw [availableOf_eq_of_some rfl, hgd]
        have hq0' : 0 ≤ q - min q (l.remaining.getD 0) := by
          have := min_le_left q (l.remaining.getD 0)
          linarith
        have hqt' : q - min q (l.remaining.getD 0) ≤
            get_total_available ls := by
          rw [hgd]
          rcases le_total q r with hc | hc
          · rw [min_eq_left hc]
            linarith
          · rw [min_eq_right hc]
            linarith
        rw [hav2, ih hls hq0' hqt', hgd]
        ring

theorem availableOf_copyLot (l : Lot) : availableOf (copyLot l) = availableOf l := by
  rw [copyLot, availableOf, availableOf]
  rcases l.remaining with _ | r <;> simp

theorem get_total_available_copy (lots : List Lot) :
    get_total_available (lots.map copyLot) = get_total_available lots := by
  unfold get_total_available
  rw [List.map_map]
  have h : availableOf ∘ copyLot = availableOf := funext availableOf_copyLot
  rw [h]

theorem copy_prices (lots : List Lot) :
    (lots.map copyLot).map (fun l => l.price) = lots.map (fun l => l.price) := by
  rw [List.map_map]
  exact List.map_congr_left (fun l _ => rfl)

theorem copy_WFnn {lots : List Lot} (h : ∀ l ∈ lots, 0 ≤ availableOf l) :
    WFnn (lots.map copyLot) := by
  intro x hx
  obtain ⟨l, hl, rfl⟩ := List.mem_map.1 hx
  exact ⟨l.remaining.getD l.quantity, rfl, h l hl⟩

theorem copy_WFnat {lots : List Lot}
    (h : ∀ l ∈ lots, (availableOf l).den = 1 ∧ 0 ≤ availableOf l) :
    WFnat (lots.map copyLot) := by
  intro x hx
  obtain ⟨l, hl, rfl⟩ := List.mem_map.1 hx
  obtain ⟨k, hk⟩ := rat_den_one_nonneg (h l hl).1 (h l hl).2
  exact ⟨k, by rw [copyLot]; rw [availableOf] at hk; rw [hk]⟩

/-! ## Branch lemmas for `planYear` and the basic `planGo` facts -/

theorem planYear_eq_exhausted {fe il : Bool} {p g : ℚ} {w : List Lot}
    {ts : ℤ} {tr tt : ℚ} {y : ℕ} (h : get_total_available w ≤ 0) :
    planYear fe il p g w ts tr tt y =
      (zeroEntry (y + 1) (p * (1 + g) ^ y) 0 ts tr tt, w, ts, tr, tt) := by
  unfold planYear
  rw [if_pos h]

theorem planYear_eq_skip {fe il : Bool} {p g : ℚ} {w : List Lot}
    {ts : ℤ} {tr tt : ℚ} {y : ℕ} (h : ¬ get_total_available w ≤ 0)
    (hu : ¬ 0 < plannedUnits fe il w (p * (1 + g) ^ y)) :
    planYear fe il p g w ts tr tt y =
      (zeroEntry (y + 1) (p * (1 + g) ^ y) (get_total_available w) ts tr tt,
        w, ts, tr, tt) := by
  unfold planYear
  rw [if_neg h]
  simp only [if_neg hu]

theorem planYear_eq_sell {fe il : Bool} {p g : ℚ} {w : List Lot}
    {ts : ℤ} {tr tt : ℚ} {y : ℕ} (h : ¬ get_total_available w ≤ 0)
    (hu : 0 < plannedUnits fe il w (p * (1 + g) ^ y)) :
    planYear fe il p g w ts tr tt y =
      ({ year := y + 1, price := p * (1 + g) ^ y, limit := BASE_LIMIT,
          units := plannedUnits fe il w (p * (1 + g) ^ y),
          revenue := (plannedUnits fe il w (p * (1 + g) ^ y) : ℚ) *
            (p * (1 + g) ^ y),
          cost_basis := some
            (sellFromLots w (plannedUnits fe il w (p * (1 + g) ^ y) : ℚ) 0).1,
          gain :=
            if fe then
              (plannedUnits fe il w (p * (1 + g) ^ y) : ℚ) * (p * (1 + g) ^ y) -
                (sellFromLots w
                  (plannedUnits fe il w (p * (1 + g) ^ y) : ℚ) 0).1
            else (max_sellable_for_gain w (p * (1 + g) ^ y) BASE_LIMIT).2,
          taxable := (calculate_tax
            (if fe then
              (plannedUnits fe il w (p * (1 + g) ^ y) : ℚ) * (p * (1 + g) ^ y) -
                (sellFromLots w
                  (plannedUnits fe il w (p * (1 + g) ^ y) : ℚ) 0).1
            else (max_sellable_for_gain w (p * (1 + g) ^ y) BASE_LIMIT).2)
            BASE_LIMIT).1,
          tax := (calculate_tax
            (if fe then
              (plannedUnits fe il w (p * (1 + g) ^ y) : ℚ) * (p * (1 + g) ^ y) -
                (sellFromLots w
                  (plannedUnits fe il w (p * (1 + g) ^ y) : ℚ) 0).1
            else (max_sellable_for_gain w (p * (1 + g) ^ y) BASE_LIMIT).2)
            BASE_LIMIT).2,
          net := (plannedUnits fe il w (p * (1 + g) ^ y) : ℚ) *
              (p * (1 + g) ^ y) -
            (calculate_tax
              (if fe then
                (plannedUnits fe il w (p * (1 + g) ^ y) : ℚ) *
                  (p * (1 + g) ^ y) -
                  (sellFromLots w
                    (plannedUnits fe il w (p * (1 + g) ^ y) : ℚ) 0).1
              else (max_sellable_for_gain w (p * (1 + g) ^ y) BASE_LIMIT).2)
              BASE_LIMIT).2,
          remaining := get_total_available
            (sellFromLots w (plannedUnits fe il w (p * (1 + g) ^ y) : ℚ) 0).2,
          cumulative_sold := ts + plannedUnits fe il w (p * (1 + g) ^ y),
          cumulative_revenue := tr +
            (plannedUnits fe il w (p * (1 + g) ^ y) : ℚ) * (p * (1 + g) ^ y),
          cumulative_tax := tt + (calculate_tax
            (if fe then
              (plannedUnits fe il w (p * (1 + g) ^ y) : ℚ) * (p * (1 + g) ^ y) -
                (sellFromLots w
                  (plannedUnits fe il w (p * (1 + g) ^ y) : ℚ) 0).1
            else (max_sellable_for_gain w (p * (1 + g) ^ y) BASE_LIMIT).2)
            BASE_LIMIT).2 },
        (sellFromLots w (plannedUnits fe il w (p * (1 + g) ^ y) : ℚ) 0).2,
        ts + plannedUnits fe il w (p * (1 + g) ^ y),
        tr + (plannedUnits fe il w (p * (1 + g) ^ y) : ℚ) * (p * (1 + g) ^ y),
        tt + (calculate_tax
          (if fe then
            (plannedUnits fe il w (p * (1 + g) ^ y) : ℚ) * (p * (1 + g) ^ y) -
              (sellFromLots w
                (plannedUnits fe il w (p * (1 + g) ^ y) : ℚ) 0).1
          else (max_sellable_for_gain w (p * (1 + g) ^ y) BASE_LIMIT).2)
          BASE_LIMIT).2) := by
  unfold planYear
  rw [if_neg h]
  simp only [if_pos hu]

theorem planGo_succ (fe : Bool) (p g : ℚ) (w : List Lot) (ts : ℤ)
    (tr tt : ℚ) (y left : ℕ) :
    planGo fe p g w ts tr tt y (left + 1) =
      (planYear fe (left == 0) p g w ts tr tt y).1 ::
        planGo fe p g (planYear fe (left == 0) p g w ts tr tt y).2.1
          (planYear fe (left == 0) p g w ts tr tt y).2.2.1
          (planYear fe (left == 0) p g w ts tr tt y).2.2.2.1
          (planYear fe (left == 0) p g w ts tr tt y).2.2.2.2
          (y + 1) left := rfl

theorem planGo_length (fe : Bool) (p g : ℚ) :
    ∀ (n : ℕ) (w : List Lot) (ts : ℤ) (tr tt : ℚ) (y : ℕ),
      (planGo fe p g w ts tr tt y n).length = n := by
  intro n
  induction n with
  | zero => intro w ts tr tt y; rfl
  | succ m ih =>
    intro w ts tr tt y
    rw [planGo_succ, List.length_cons, ih]

theorem zeroEntry_zeroActivity {y : ℕ} {cp : ℚ} {ts : ℤ} {tr tt : ℚ} :
    ZeroActivity (zeroEntry y cp 0 ts tr tt) ts tr tt := by
  unfold ZeroActivity zeroEntry
  refine ⟨rfl, rfl, rfl, rfl, rfl, rfl, rfl, rfl, rfl, rfl⟩

/-- Once the working ledger is exhausted, every remaining year of the plan
is a frozen zero-activity entry. -/
theorem planGo_all_zero (fe : Bool) (p g : ℚ) :
    ∀ (n : ℕ) (w : List Lot) (ts : ℤ) (tr tt : ℚ) (y : ℕ),
      get_total_available w ≤ 0 →
      ∀ e ∈ planGo fe p g w ts tr tt y n, ZeroActivity e ts tr tt := by
  intro n
  induction n with
  | zero =>
    intro w ts tr tt y _ e he
    simp [planGo] at he
  | succ m ih =>
    intro w ts tr tt y h e he
    rw [planGo_succ, planYear_eq_exhausted h] at he
    rcases List.mem_cons.1 he with rfl | he'
    · exact zeroEntry_zeroActivity
    · exact ih w ts tr tt (y + 1) h e he'

/-- The state emitted by a planner year carries the same cumulative totals
as the year's entry, and an entry reporting `remaining = 0` means the new
working ledger is exhausted. -/
theorem planYear_state_facts (fe il : Bool) (p g : ℚ) (w : List Lot)
    (ts : ℤ) (tr tt : ℚ) (y : ℕ) :
    (planYear fe il p g w ts tr tt y).2.2.1 =
        (planYear fe il p g w ts tr tt y).1.cumulative_sold ∧
    (planYear fe il p g w ts tr tt y).2.2.2.1 =
        (planYear fe il p g w ts tr tt y).1.cumulative_revenue ∧
    (planYear fe il p g w ts tr tt y).2.2.2.2 =
        (planYear fe il p g w ts tr tt y).1.cumulative_tax ∧
    ((planYear fe il p g w ts tr tt y).1.remaining = 0 →
      get_total_available (planYear fe il p g w ts tr tt y).2.1 ≤ 0) := by
  by_cases h : get_total_available w ≤ 0
  · rw [planYear_eq_exhausted h]
    exact ⟨rfl, rfl, rfl, fun _ => h⟩
  · by_cases hu : 0 < plannedUnits fe il w (p * (1 + g) ^ y)
    · rw [planYear_eq_sell h hu]
      exact ⟨rfl, rfl, rfl, fun hrem => le_of_eq hrem⟩
    · rw [planYear_eq_skip h hu]
      exact ⟨rfl, rfl, rfl, fun hrem => le_of_eq hrem⟩

/-- Zero-propagation: in any plan produced by the year loop, once an entry
reports `remaining = 0`, every later entry is a zero-activity entry whose
cumulative totals equal the earlier entry's. -/
theorem planGo_zero_prop (fe : Bool) (p g : ℚ) :
    ∀ (n : ℕ) (w : List Lot) (ts : ℤ) (tr tt : ℚ) (y : ℕ) (i j : ℕ)
      (ei ej : PlanEntry), i < j →
      (planGo fe p g w ts tr tt y n).get? i = some ei →
      (planGo fe p g w ts tr tt y n).get? j = some ej →
      ei.remaining = 0 →
      ZeroActivity ej ei.cumulative_sold ei.cumulative_revenue
        ei.cumulative_tax := by
  intro n
  induction n with
  | zero =>
    intro w ts tr tt y i j ei ej _ hgi
    simp [planGo] at hgi
  | succ m ih =>
    intro w ts tr tt y i j ei ej hij hgi hgj hrem
    obtain ⟨f1, f2, f3, f4⟩ := planYear_state_facts fe (m == 0) p g w ts tr tt y
    rw [planGo_succ] at hgi hgj
    cases i with
    | zero =>
      rw [List.get?_cons_zero] at hgi
      obtain rfl : (planYear fe (m == 0) p g w ts tr tt y).1 = ei :=
        Option.some_injective _ hgi
      obtain ⟨j', rfl⟩ : ∃ j', j = j' + 1 := ⟨j - 1, by omega⟩
      rw [List.get?_cons_succ] at hgj
      have hz := f4 hrem
      have hmem : ej ∈ planGo fe p g (planYear fe (m == 0) p g w ts tr tt y).2.1
          (planYear fe (m == 0) p g w ts tr tt y).2.2.1
          (planYear fe (m == 0) p g w ts tr tt y).2.2.2.1
          (planYear fe (m == 0) p g w ts tr tt y).2.2.2.2
          (y + 1) m := List.get?_mem hgj
      have hza := planGo_all_zero fe p g m _ _ _ _ (y + 1) hz ej hmem
      rw [f1, f2, f3] at hza
      exact hza
    | succ i' =>
      obtain ⟨j', rfl⟩ : ∃ j', j = j' + 1 := ⟨j - 1, by omega⟩
      rw [List.get?_cons_succ] at hgi hgj
      exact ih _ _ _ _ (y + 1) i' j' ei ej (by omega) hgi hgj hrem

theorem calculate_tax_of_le {gain limit : ℚ} (h : gain ≤ limit) :
    calculate_tax gain limit = (0, 0) := by
  unfold calculate_tax
  rw [if_pos h]

theorem plannedUnits_bounds {fe il : Bool} {w : List Lot} {cp : ℚ}
    (hA : ∀ l ∈ w, 0 ≤ availableOf l) :
    0 ≤ plannedUnits fe il w cp ∧
      ((plannedUnits fe il w cp : ℤ) : ℚ) ≤ get_total_available w := by
  have htot : 0 ≤ get_total_available w := get_total_available_nonneg hA
  unfold plannedUnits
  by_cases hb : (fe && il) = true
  · rw [if_pos hb]
    exact ⟨pyInt_nonneg htot, pyInt_cast_le htot⟩
  · rw [if_neg hb]
    exact msfg_bounds hA

theorem plannedUnits_multi {il : Bool} {w : List Lot} {cp : ℚ} :
    plannedUnits false il w cp = (max_sellable_for_gain w cp BASE_LIMIT).1 := by
  unfold plannedUnits
  rw [if_neg (by simp)]

theorem plannedUnits_full_last {w : List Lot} {cp : ℚ} :
    plannedUnits true true w cp = pyInt (get_total_available w) := by
  unfold plannedUnits
  simp

/-- Each planner year conserves units (`sold + remaining` is invariant) and
preserves integrality of the working ledger. -/
theorem planYear_conserve (fe il : Bool) (p g : ℚ) (w : List Lot) (ts : ℤ)
    (tr tt : ℚ) (y : ℕ) (hw : WFnat w) :
    WFnat (planYear fe il p g w ts tr tt y).2.1 ∧
      ((planYear fe il p g w ts tr tt y).2.2.1 : ℚ) +
          get_total_available (planYear fe il p g w ts tr tt y).2.1 =
        (ts : ℚ) + get_total_available w := by
  have hA := WFnn.avail_nonneg hw.toWFnn
  by_cases h : get_total_available w ≤ 0
  · rw [planYear_eq_exhausted h]
    exact ⟨hw, rfl⟩
  · by_cases hu : 0 < plannedUnits fe il w (p * (1 + g) ^ y)
    · rw [planYear_eq_sell h hu]
      obtain ⟨hu0, hut⟩ := @plannedUnits_bounds fe il w (p * (1 + g) ^ y) hA
      have hq0 : (0 : ℚ) ≤ (plannedUnits fe il w (p * (1 + g) ^ y) : ℚ) := by
        exact_mod_cast hu0
      constructor
      · refine sellFromLots_WFnat hw ?_
        refine ⟨(plannedUnits fe il w (p * (1 + g) ^ y)).toNat, ?_⟩
        have hcast : ((plannedUnits fe il w (p * (1 + g) ^ y)).toNat : ℤ) =
            plannedUnits fe il w (p * (1 + g) ^ y) := Int.toNat_of_nonneg hu0
        exact_mod_cast hcast.symm
      · rw [sellFromLots_total hw.toWFnn hq0 hut]
        push_cast
        ring
    · rw [planYear_eq_skip h hu]
      exact ⟨hw, rfl⟩

theorem getLast?_cons_of_ne_nil {α : Type _} (a : α) {l : List α}
    (h : l ≠ []) : (a :: l).getLast? = l.getLast? := by
  cases l with
  | nil => exact absurd rfl h
  | cons b l' => rfl

/-- In `plan_full_extraction`'s loop, the final configured year liquidates
the whole (integral) working ledger: the last entry reports nothing
remaining, and its cumulative sold count is the opening total plus
everything that was available. -/
theorem planGo_full_last (p g : ℚ) :
    ∀ (n : ℕ), 1 ≤ n → ∀ (w : List Lot) (ts : ℤ) (tr tt : ℚ) (y : ℕ),
      WFnat w →
      ∃ e, (planGo true p g w ts tr tt y n).getLast? = some e ∧
        e.remaining = 0 ∧
        (e.cumulative_sold : ℚ) = (ts : ℚ) + get_total_available w := by
  intro n
  induction n with
  | zero => intro h; omega
  | succ m ih =>
    intro _ w ts tr tt y hw
    have htot0 : 0 ≤ get_total_available w :=
      get_total_available_nonneg (WFnn.avail_nonneg hw.toWFnn)
    cases m with
    | zero =>
      rw [planGo_succ]
      rw [show ((0 : ℕ) == 0) = true from rfl]
      by_cases h : get_total_available w ≤ 0
      · rw [planYear_eq_exhausted h]
        have hz : get_total_available w = 0 := le_antisymm h htot0
        refine ⟨_, rfl, rfl, ?_⟩
        rw [hz]
        show ((ts : ℤ) : ℚ) = (ts : ℚ) + 0
        ring
      · obtain ⟨K, hK⟩ := hw.total_natCast
        have hKpos : 0 < (K : ℚ) := by
          rw [← hK]
          exact lt_of_not_le h
        have hpu : plannedUnits true true w (p * (1 + g) ^ y) =
            (K : ℤ) := by
          rw [plannedUnits_full_last, hK, pyInt_natCast]
        have hu : 0 < plannedUnits true true w (p * (1 + g) ^ y) := by
          rw [hpu]
          exact_mod_cast hKpos
        rw [planYear_eq_sell h hu]
        refine ⟨_, rfl, ?_, ?_⟩
        · show get_total_available
            (sellFromLots w
              ((plannedUnits true true w (p * (1 + g) ^ y) : ℤ) : ℚ) 0).2 = 0
          rw [hpu]
          have hcast : (((K : ℤ) : ℤ) : ℚ) = (K : ℚ) := by push_cast; ring
          rw [hcast, sellFromLots_total hw.toWFnn (le_of_lt hKpos)
            (le_of_eq hK.symm), hK]
          ring
        · show ((ts + plannedUnits true true w (p * (1 + g) ^ y) : ℤ) : ℚ) =
            (ts : ℚ) + get_total_available w
          rw [hpu, hK]
          push_cast
          ring
    | succ m' =>
      rw [planGo_succ]
      obtain ⟨hWF, hconsv⟩ :=
        planYear_conserve true (m' + 1 == 0) p g w ts tr tt y hw
      obtain ⟨e, hlast, hrem, hcum⟩ := ih (by omega) _ _ _ _ (y + 1) hWF
      have hne : planGo true p g
          (planYear true (m' + 1 == 0) p g w ts tr tt y).2.1
          (planYear true (m' + 1 == 0) p g w ts tr tt y).2.2.1
          (planYear true (m' + 1 == 0) p g w ts tr tt y).2.2.2.1
          (planYear true (m' + 1 == 0) p g w ts tr tt y).2.2.2.2
          (y + 1) (m' + 1) ≠ [] := by
        apply List.length_pos.1
        rw [planGo_length]
        omega
      refine ⟨e, ?_, hrem, ?_⟩
      · rw [getLast?_cons_of_ne_nil _ hne]
        exact hlast
      · rw [hcum, hconsv]

/-- In the steady-state loop, when every lot price stays at or below every
simulated year's effective price, no year ever owes tax: the optimizer's
reported gain never exceeds the yearly limit, so each entry has zero
taxable amount and tax, net equal to revenue, and an unchanged cumulative
tax. -/
theorem planGo_multi_no_tax (p g : ℚ) :
    ∀ (n : ℕ) (w : List Lot) (ts : ℤ) (tr tt : ℚ) (y : ℕ), WFnn w →
      (∀ y' : ℕ, y ≤ y' → y' < y + n →
        ∀ pr ∈ w.map (fun l => l.price), pr ≤ p * (1 + g) ^ y') →
      ∀ e ∈ planGo false p g w ts tr tt y n,
        e.taxable = 0 ∧ e.tax = 0 ∧ e.net = e.revenue ∧
          e.cumulative_tax = tt := by
  intro n
  induction n with
  | zero =>
    intro w ts tr tt y _ _ e he
    simp [planGo] at he
  | succ m ih =>
    intro w ts tr tt y hw hP e he
    rw [planGo_succ] at he
    have hPy : ∀ l ∈ w, l.price ≤ p * (1 + g) ^ y := by
      intro l hl
      exact hP y le_rfl (by omega) l.price (List.mem_map.2 ⟨l, hl, rfl⟩)
    have hA := WFnn.avail_nonneg hw
    by_cases h : get_total_available w ≤ 0
    · rw [planYear_eq_exhausted h] at he
      rcases List.mem_cons.1 he with rfl | he'
      · exact ⟨rfl, rfl, rfl, rfl⟩
      · exact ih w ts tr tt (y + 1) hw
          (fun y' h1 h2 => hP y' (by omega) (by omega)) e he'
    · by_cases hu : 0 < plannedUnits false (m == 0) w (p * (1 + g) ^ y)
      · have hmg_pos : 0 <
            (max_sellable_for_gain w (p * (1 + g) ^ y) BASE_LIMIT).1 := by
          rw [← @plannedUnits_multi (m == 0) w (p * (1 + g) ^ y)]
          exact hu
        have hmg_le : (max_sellable_for_gain w (p * (1 + g) ^ y)
            BASE_LIMIT).2 ≤ BASE_LIMIT :=
          msfg_snd_le_target hA hPy hmg_pos
        have htax : calculate_tax
            (max_sellable_for_gain w (p * (1 + g) ^ y) BASE_LIMIT).2
            BASE_LIMIT = (0, 0) := calculate_tax_of_le hmg_le
        rw [planYear_eq_sell h hu] at he
        rcases List.mem_cons.1 he with rfl | he'
        · refine ⟨?_, ?_, ?_, ?_⟩
          · show (calculate_tax
              (max_sellable_for_gain w (p * (1 + g) ^ y) BASE_LIMIT).2
              BASE_LIMIT).1 = 0
            rw [htax]
          · show (calculate_tax
              (max_sellable_for_gain w (p * (1 + g) ^ y) BASE_LIMIT).2
              BASE_LIMIT).2 = 0
            rw [htax]
          · show (plannedUnits false (m == 0) w (p * (1 + g) ^ y) : ℚ) *
                (p * (1 + g) ^ y) -
              (calculate_tax
                (max_sellable_for_gain w (p * (1 + g) ^ y) BASE_LIMIT).2
                BASE_LIMIT).2 =
              (plannedUnits false (m == 0) w (p * (1 + g) ^ y) : ℚ) *
                (p * (1 + g) ^ y)
            rw [htax]
            ring
          · show tt + (calculate_tax
              (max_sellable_for_gain w (p * (1 + g) ^ y) BASE_LIMIT).2
              BASE_LIMIT).2 = tt
            rw [htax]
            ring
        · have hres := ih (sellFromLots w
              ((plannedUnits false (m == 0) w (p * (1 + g) ^ y) : ℤ) : ℚ) 0).2
            (ts + plannedUnits false (m == 0) w (p * (1 + g) ^ y))
            (tr + (plannedUnits false (m == 0) w (p * (1 + g) ^ y) : ℚ) *
              (p * (1 + g) ^ y))
            (tt + (calculate_tax
              (max_sellable_for_gain w (p * (1 + g) ^ y) BASE_LIMIT).2
              BASE_LIMIT).2)
            (y + 1) (sellFromLots_WFnn hw)
            (by
              intro y' h1 h2 pr hpr
              rw [sellFromLots_prices] at hpr
              exact hP y' (by omega) (by omega) pr hpr)
            e he'
          rw [htax] at hres
          obtain ⟨r1, r2, r3, r4⟩ := hres
          refine ⟨r1, r2, r3, ?_⟩
          rw [r4]
          ring
      · rw [planYear_eq_skip h hu] at he
        rcases List.mem_cons.1 he with rfl | he'
        · exact ⟨rfl, rfl, rfl, rfl⟩
        · exact ih w ts tr tt (y + 1) hw
            (fun y' h1 h2 => hP y' (by omega) (by omega)) e he'

/-- C8 (corrected).  Both planners always emit exactly `N` entries, and
once an entry reports zero remaining units every later entry records zero
units, revenue, gain and tax with unchanged cumulative totals.  The final
clause — `plan_full_extraction`'s last year sells *all* remaining units —
holds for ledgers whose available quantities are whole numbers, but fails
for fractional ledgers because the last year sells `int(available)` (see
`C8_counterexample`). -/
theorem C8_planners (lots : List Lot) (p g : ℚ) (N : ℕ) :
    (plan_multi_year_sales lots p N g).length = N ∧
    (plan_full_extraction lots p N g).length = N ∧
    (∀ i j : ℕ, ∀ ei ej : PlanEntry, i < j →
      (plan_multi_year_sales lots p N g).get? i = some ei →
      (plan_multi_year_sales lots p N g).get? j = some ej →
      ei.remaining = 0 →
      ej.units = 0 ∧ ej.revenue = 0 ∧ ej.gain = 0 ∧ ej.tax = 0 ∧
        ej.cumulative_sold = ei.cumulative_sold ∧
        ej.cumulative_revenue = ei.cumulative_revenue ∧
        ej.cumulative_tax = ei.cumulative_tax) ∧
    (∀ i j : ℕ, ∀ ei ej : PlanEntry, i < j →
      (plan_full_extraction lots p N g).get? i = some ei →
      (plan_full_extraction lots p N g).get? j = some ej →
      ei.remaining = 0 →
      ej.units = 0 ∧ ej.revenue = 0 ∧ ej.gain = 0 ∧ ej.tax = 0 ∧
        ej.cumulative_sold = ei.cumulative_sold ∧
        ej.cumulative_revenue = ei.cumulative_revenue ∧
        ej.cumulative_tax = ei.cumulative_tax) ∧
    (1 ≤ N → (∀ l ∈ lots, (availableOf l).den = 1 ∧ 0 ≤ availableOf l) →
      ∃ e, (plan_full_extraction lots p N g).getLast? = some e ∧
        e.remaining = 0 ∧
        (e.cumulative_sold : ℚ) = get_total_available lots) := by
  refine ⟨planGo_length false p g N _ 0 0 0 0,
    planGo_length true p g N _ 0 0 0 0, ?_, ?_, ?_⟩
  · intro i j ei ej hij hgi hgj hrem
    obtain ⟨z1, z2, z3, _, z5, _, _, z8, z9, z10⟩ :=
      planGo_zero_prop false p g N _ 0 0 0 0 i j ei ej hij hgi hgj hrem
    exact ⟨z1, z2, z3, z5, z8, z9, z10⟩
  · intro i j ei ej hij hgi hgj hrem
    obtain ⟨z1, z2, z3, _, z5, _, _, z8, z9, z10⟩ :=
      planGo_zero_prop true p g N _ 0 0 0 0 i j ei ej hij hgi hgj hrem
    exact ⟨z1, z2, z3, z5, z8, z9, z10⟩
  · intro hN hI
    obtain ⟨e, hlast, hrem, hcum⟩ :=
      planGo_full_last p g N hN (lots.map copyLot) 0 0 0 0 (copy_WFnat hI)
    refine ⟨e, hlast, hrem, ?_⟩
    rw [hcum, get_total_available_copy]
    push_cast
    ring

theorem C8_planners_witness :
    (plan_multi_year_sales [⟨1, 1, 1, none⟩] 2 1 0).length = 1 ∧
    (plan_full_extraction [⟨1, 1, 1, none⟩] 2 1 0).length = 1 ∧
    (∀ i j : ℕ, ∀ ei ej : PlanEntry, i < j →
      (plan_multi_year_sales [⟨1, 1, 1, none⟩] 2 1 0).get? i = some ei →
      (plan_multi_year_sales [⟨1, 1, 1, none⟩] 2 1 0).get? j = some ej →
      ei.remaining = 0 →
      ej.units = 0 ∧ ej.revenue = 0 ∧ ej.gain = 0 ∧ ej.tax = 0 ∧
        ej.cumulative_sold = ei.cumulative_sold ∧
        ej.cumulative_revenue = ei.cumulative_revenue ∧
        ej.cumulative_tax = ei.cumulative_tax) ∧
    (∀ i j : ℕ, ∀ ei ej : PlanEntry, i < j →
      (plan_full_extraction [⟨1, 1, 1, none⟩] 2 1 0).get? i = some ei →
      (plan_full_extraction [⟨1, 1, 1, none⟩] 2 1 0).get? j = some ej →
      ei.remaining = 0 →
      ej.units = 0 ∧ ej.revenue = 0 ∧ ej.gain = 0 ∧ ej.tax = 0 ∧
        ej.cumulative_sold = ei.cumulative_sold ∧
        ej.cumulative_revenue = ei.cumulative_revenue ∧
        ej.cumulative_tax = ei.cumulative_tax) ∧
    (1 ≤ 1 →
      (∀ l ∈ [(⟨1, 1, 1, none⟩ : Lot)],
        (availableOf l).den = 1 ∧ 0 ≤ availableOf l) →
      ∃ e, (plan_full_extraction [⟨1, 1, 1, none⟩] 2 1 0).getLast? = some e ∧
        e.remaining = 0 ∧
        (e.cumulative_sold : ℚ) = get_total_available [⟨1, 1, 1, none⟩]) :=
  C8_planners [⟨1, 1, 1, none⟩] 2 0 1

/-- C8 (counterexample).  A one-year full-extraction plan over a ledger
holding half a unit sells nothing in its final year — `int(0.5) = 0` —
and leaves `remaining = 1/2 ≠ 0`: the final year does not sell all
remaining available units. -/
theorem C8_counterexample :
    (plan_full_extraction cexLots8 1 1 (1/20)).map
        (fun e => (e.units, e.remaining)) = [(0, 1/2)] ∧
    get_total_available cexLots8 = 1/2 ∧ ((1/2 : ℚ) ≠ 0) := by
  refine ⟨?_, by with_unfolding_all decide, by norm_num⟩
  with_unfolding_all decide

/-- C10 (corrected).  As stated — quantifying over every growth rate —
the claim is false: with a negative growth rate a later year's price can
drop below a lot's price, gain stops being monotone, and the optimizer can
report a gain above the limit, producing tax (see `C10_counterexample`).
The property holds whenever every lot's unit price is at most **each
simulated year's** effective sale price `p * (1+g)^(year-1)` — in
particular whenever prices are at most the sale price and the sale price
and growth rate are nonnegative. -/
theorem C10_steady_state_no_tax (lots : List Lot) (p g : ℚ) (N : ℕ)
    (hA : ∀ l ∈ lots, 0 ≤ availableOf l)
    (hP : ∀ y, y < N → ∀ l ∈ lots, l.price ≤ p * (1 + g) ^ y) :
    ∀ e ∈ plan_multi_year_sales lots p N g,
      e.taxable = 0 ∧ e.tax = 0 ∧ e.net = e.revenue ∧
        e.cumulative_tax = 0 := by
  unfold plan_multi_year_sales
  refine planGo_multi_no_tax p g N (lots.map copyLot) 0 0 0 0
    (copy_WFnn hA) ?_
  intro y' _ h2 pr hpr
  rw [copy_prices] at hpr
  obtain ⟨l, hl, rfl⟩ := List.mem_map.1 hpr
  exact hP y' (by omega) l hl

theorem headI_mem_of_length_pos {α : Type} [Inhabited α] {l : List α}
    (h : 0 < l.length) : l.headI ∈ l := by
  cases l with
  | nil => simp at h
  | cons a as => exact List.mem_cons_self a as

theorem C10_steady_state_no_tax_witness :
    (plan_multi_year_sales [⟨1, 1, 1, none⟩] 2 1 0).headI.taxable = 0 ∧
      (plan_multi_year_sales [⟨1, 1, 1, none⟩] 2 1 0).headI.tax = 0 ∧
      (plan_multi_year_sales [⟨1, 1, 1, none⟩] 2 1 0).headI.net =
        (plan_multi_year_sales [⟨1, 1, 1, none⟩] 2 1 0).headI.revenue ∧
      (plan_multi_year_sales [⟨1, 1, 1, none⟩] 2 1 0).headI.cumulative_tax =
        0 :=
  C10_steady_state_no_tax [⟨1, 1, 1, none⟩] 2 0 1
    (by with_unfolding_all decide) (by with_unfolding_all decide)
    (plan_multi_year_sales [⟨1, 1, 1, none⟩] 2 1 0).headI
    (headI_mem_of_length_pos (by with_unfolding_all decide))

theorem cex10_year1_search :
    max_sellable_for_gain cexWorking10 60000 BASE_LIMIT = (0, 0) := by
  have h0 : get_total_available cexWorking10 = 11 := by
    norm_num [get_total_available, availableOf, cexWorking10]
  have hg : calculate_gain cexWorking10 (get_total_available cexWorking10)
      60000 = some 619900 := by
    rw [h0]
    norm_num [calculate_gain, calculate_fifo_cost_basis, fifoGo, availableOf,
      cexWorking10, min_def]
  rw [msfg_eq_search_of_gt (by rw [h0]; norm_num) hg
    (by norm_num [BASE_LIMIT]), h0]
  have h1 : msStep cexWorking10 60000 BASE_LIMIT ⟨0, 11, 0, 0⟩ =
      ⟨0, 11/2, 0, 0⟩ := by
    norm_num [msStep, calculate_gain, calculate_fifo_cost_basis, fifoGo,
      availableOf, cexWorking10, min_def, BASE_LIMIT]
  have h2 : msStep cexWorking10 60000 BASE_LIMIT ⟨0, 11/2, 0, 0⟩ =
      ⟨0, 11/4, 0, 0⟩ := by
    norm_num [msStep, calculate_gain, calculate_fifo_cost_basis, fifoGo,
      availableOf, cexWorking10, min_def, BASE_LIMIT]
  have h3 : msStep cexWorking10 60000 BASE_LIMIT ⟨0, 11/4, 0, 0⟩ =
      ⟨0, 11/8, 0, 0⟩ := by
    norm_num [msStep, calculate_gain, calculate_fifo_cost_basis, fifoGo,
      availableOf, cexWorking10, min_def, BASE_LIMIT]
  have h4 : msStep cexWorking10 60000 BASE_LIMIT ⟨0, 11/8, 0, 0⟩ =
      ⟨0, 11/16, 0, 0⟩ := by
    norm_num [msStep, calculate_gain, calculate_fifo_cost_basis, fifoGo,
      availableOf, cexWorking10, min_def, BASE_LIMIT]
  have h5 : msStep cexWorking10 60000 BASE_LIMIT ⟨0, 11/16, 0, 0⟩ =
      ⟨0, 11/32, 0, 0⟩ := by
    norm_num [msStep, calculate_gain, calculate_fifo_cost_basis, fifoGo,
      availableOf, cexWorking10, min_def, BASE_LIMIT]
  have hiter : (msStep cexWorking10 60000 BASE_LIMIT)^[100] ⟨0, 11, 0, 0⟩ =
      ⟨0, 11/32, 0, 0⟩ :=
    calc (msStep cexWorking10 60000 BASE_LIMIT)^[100] ⟨0, 11, 0, 0⟩
        = (msStep cexWorking10 60000 BASE_LIMIT)^[99] ⟨0, 11/2, 0, 0⟩ :=
          iterate_step _ 99 h1
      _ = (msStep cexWorking10 60000 BASE_LIMIT)^[98] ⟨0, 11/4, 0, 0⟩ :=
          iterate_step _ 98 h2
      _ = (msStep cexWorking10 60000 BASE_LIMIT)^[97] ⟨0, 11/8, 0, 0⟩ :=
          iterate_step _ 97 h3
      _ = (msStep cexWorking10 60000 BASE_LIMIT)^[96] ⟨0, 11/16, 0, 0⟩ :=
          iterate_step _ 96 h4
      _ = (msStep cexWorking10 60000 BASE_LIMIT)^[95] ⟨0, 11/32, 0, 0⟩ :=
          iterate_step _ 95 h5
      _ = ⟨0, 11/32, 0, 0⟩ := msStep_halt (by norm_num) 95
  unfold msfgSearch
  rw [hiter]
  norm_num [pyInt]

theorem cex10_year2_search :
    max_sellable_for_gain cexWorking10 6000 BASE_LIMIT = (2, 10300) := by
  have h0 : get_total_available cexWorking10 = 11 := by
    norm_num [get_total_available, availableOf, cexWorking10]
  have hg : calculate_gain cexWorking10 (get_total_available cexWorking10)
      6000 = some 25900 := by
    rw [h0]
    norm_num [calculate_gain, calculate_fifo_cost_basis, fifoGo, availableOf,
      cexWorking10, min_def]
  rw [msfg_eq_search_of_gt (by rw [h0]; norm_num) hg
    (by norm_num [BASE_LIMIT]), h0]
  have h1 : msStep cexWorking10 6000 BASE_LIMIT ⟨0, 11, 0, 0⟩ =
      ⟨0, 11/2, 0, 0⟩ := by
    norm_num [msStep, calculate_gain, calculate_fifo_cost_basis, fifoGo,
      availableOf, cexWorking10, min_def, BASE_LIMIT]
  have h2 : msStep cexWorking10 6000 BASE_LIMIT ⟨0, 11/2, 0, 0⟩ =
      ⟨11/4, 11/2, 11/4, 10000⟩ := by
    norm_num [msStep, calculate_gain, calculate_fifo_cost_basis, fifoGo,
      availableOf, cexWorking10, min_def, BASE_LIMIT]
  have h3 : msStep cexWorking10 6000 BASE_LIMIT ⟨11/4, 11/2, 11/4, 10000⟩ =
      ⟨11/4, 33/8, 11/4, 10000⟩ := by
    norm_num [msStep, calculate_gain, calculate_fifo_cost_basis, fifoGo,
      availableOf, cexWorking10, min_def, BASE_LIMIT]
  have h4 : msStep cexWorking10 6000 BASE_LIMIT ⟨11/4, 33/8, 11/4, 10000⟩ =
      ⟨11/4, 55/16, 11/4, 10000⟩ := by
    norm_num [msStep, calculate_gain, calculate_fifo_cost_basis, fifoGo,
      availableOf, cexWorking10, min_def, BASE_LIMIT]
  have h5 : msStep cexWorking10 6000 BASE_LIMIT ⟨11/4, 55/16, 11/4, 10000⟩ =
      ⟨11/4, 99/32, 11/4, 10000⟩ := by
    norm_num [msStep, calculate_gain, calculate_fifo_cost_basis, fifoGo,
      availableOf, cexWorking10, min_def, BASE_LIMIT]
  have hiter : (msStep cexWorking10 6000 BASE_LIMIT)^[100] ⟨0, 11, 0, 0⟩ =
      ⟨11/4, 99/32, 11/4, 10000⟩ :=
    calc (msStep cexWorking10 6000 BASE_LIMIT)^[100] ⟨0, 11, 0, 0⟩
        = (msStep cexWorking10 6000 BASE_LIMIT)^[99] ⟨0, 11/2, 0, 0⟩ :=
          iterate_step _ 99 h1
      _ = (msStep cexWorking10 6000 BASE_LIMIT)^[98]
            ⟨11/4, 11/2, 11/4, 10000⟩ := iterate_step _ 98 h2
      _ = (msStep cexWorking10 6000 BASE_LIMIT)^[97]
            ⟨11/4, 33/8, 11/4, 10000⟩ := iterate_step _ 97 h3
      _ = (msStep cexWorking10 6000 BASE_LIMIT)^[96]
            ⟨11/4, 55/16, 11/4, 10000⟩ := iterate_step _ 96 h4
      _ = (msStep cexWorking10 6000 BASE_LIMIT)^[95]
            ⟨11/4, 99/32, 11/4, 10000⟩ := iterate_step _ 95 h5
      _ = ⟨11/4, 99/32, 11/4, 10000⟩ := msStep_halt (by norm_num) 95
  unfold msfgSearch
  rw [hiter]
  norm_num [pyInt, calculate_gain, calculate_fifo_cost_basis, fifoGo,
    availableOf, cexWorking10, min_def]

/-- The ledger of `C10_counterexample` after the planner's copy step. -/
theorem cex10_copy : cexLots10.map copyLot = cexWorking10 := rfl

theorem cex10_get :
    (plan_multi_year_sales cexLots10 60000 2 (-9/10)).get? 1 =
      some (planYear false (0 == 0) 60000 (-9/10) cexWorking10 0 0 0 1).1 := by
  have htot : ¬ get_total_available cexWorking10 ≤ 0 := by
    norm_num [get_total_available, availableOf, cexWorking10]
  have hcp0 : (60000 : ℚ) * (1 + -9/10) ^ (0 : ℕ) = 60000 := by norm_num
  have hu0 : ¬ 0 < plannedUnits false (1 == 0) cexWorking10
      ((60000 : ℚ) * (1 + -9/10) ^ (0 : ℕ)) := by
    rw [plannedUnits_multi, hcp0, cex10_year1_search]
    norm_num
  have hy0 := @planYear_eq_skip false (1 == 0) 60000 (-9/10) cexWorking10
    0 0 0 0 htot hu0
  unfold plan_multi_year_sales
  rw [cex10_copy, show (2 : ℕ) = 1 + 1 from rfl, planGo_succ, hy0]
  rfl

theorem cex10_entry1 :
    (planYear false (0 == 0) 60000 (-9/10) cexWorking10 0 0 0 1).1.taxable =
        300 ∧
      (planYear false (0 == 0) 60000 (-9/10) cexWorking10 0 0 0 1).1.tax =
        30 := by
  have htot : ¬ get_total_available cexWorking10 ≤ 0 := by
    norm_num [get_total_available, availableOf, cexWorking10]
  have hcp1 : (60000 : ℚ) * (1 + -9/10) ^ (1 : ℕ) = 6000 := by norm_num
  have hu1 : 0 < plannedUnits false (0 == 0) cexWorking10
      ((60000 : ℚ) * (1 + -9/10) ^ (1 : ℕ)) := by
    rw [plannedUnits_multi, hcp1, cex10_year2_search]
    norm_num
  have hy1 := @planYear_eq_sell false (0 == 0) 60000 (-9/10) cexWorking10
    0 0 0 1 htot hu1
  constructor
  · rw [hy1]
    show (calculate_tax (max_sellable_for_gain cexWorking10
        ((60000 : ℚ) * (1 + -9/10) ^ (1 : ℕ)) BASE_LIMIT).2 BASE_LIMIT).1 = 300
    rw [hcp1, cex10_year2_search]
    norm_num [calculate_tax, BASE_LIMIT, TAX_RATE]
  · rw [hy1]
    show (calculate_tax (max_sellable_for_gain cexWorking10
        ((60000 : ℚ) * (1 + -9/10) ^ (1 : ℕ)) BASE_LIMIT).2 BASE_LIMIT).2 = 30
    rw [hcp1, cex10_year2_search]
    norm_num [calculate_tax, BASE_LIMIT, TAX_RATE]

/-- C10 counterexample: every lot of `cexLots10` is priced at or below the
sale price `60000`, yet with a 90% yearly price decline the second entry of
the two-year steady-state plan carries taxable gain `300` and tax `30 ≠ 0`:
the year-2 optimizer run recomputes the gain of the truncated unit count at
the collapsed price and lands above the limit, so the claimed zero-tax
guarantee fails without a price floor on every year's effective price. -/
theorem C10_counterexample :
    (∀ l ∈ cexLots10, l.price ≤ (60000 : ℚ)) ∧
    ∃ e : PlanEntry,
      (plan_multi_year_sales cexLots10 60000 2 (-9/10)).get? 1 = some e ∧
        e.taxable = 300 ∧ e.tax = 30 ∧ (30 : ℚ) ≠ 0 := by
  constructor
  · intro l hl
    simp only [cexLots10, List.mem_cons, List.not_mem_nil, or_false] at hl
    rcases hl with rfl | rfl | rfl <;> norm_num
  · exact ⟨(planYear false (0 == 0) 60000 (-9/10) cexWorking10 0 0 0 1).1,
      cex10_get, cex10_entry1.1, cex10_entry1.2, by norm_num⟩

theorem hread_set_ne {h : Heap} {a b : ℕ} {x : Lot} (hne : a ≠ b) :
    hread (h.set a x) b = hread h b := by
  show ((h.set a x).get? b).getD default = (h.get? b).getD default
  rw [List.get?_set_ne x h hne]

theorem hread_set_self {h : Heap} {a : ℕ} {x : Lot} (ha : a < h.length) :
    hread (h.set a x) a = x := by
  show ((h.set a x).get? a).getD default = x
  rw [List.get?_set_eq_of_lt x ha]
  rfl

theorem hread_append_left {h l : Heap} {a : ℕ} (ha : a < h.length) :
    hread (h ++ l) a = hread h a :=
  List.getD_append h l default a ha

theorem map_hread_append (l : List Lot) : ∀ h : Heap,
    (List.range' h.length l.length).map (hread (h ++ l)) = l := by
  induction l with
  | nil => intro h; rfl
  | cons x xs ih =>
    intro h
    have h1 : hread (h ++ x :: xs) h.length = x := by
      show ((h ++ x :: xs).getD h.length default) = x
      rw [List.getD_append_right h (x :: xs) default h.length le_rfl]
      simp [List.getD]
    have ih' := ih (h ++ [x])
    have e1 : (h ++ [x]).length = h.length + 1 := by simp
    have e2 : (h ++ [x]) ++ xs = h ++ x :: xs := by simp
    rw [e1, e2] at ih'
    show (List.range' h.length (xs.length + 1)).map (hread (h ++ x :: xs)) =
      x :: xs
    rw [show List.range' h.length (xs.length + 1) =
      h.length :: List.range' (h.length + 1) xs.length from rfl]
    rw [List.map_cons, h1, ih']

theorem copyAlloc_bounds {h : Heap} {addrs : List ℕ} :
    ∀ a ∈ (copyAllocH h addrs).2, a < (copyAllocH h addrs).1.length := by
  intro a ha
  unfold copyAllocH at ha ⊢
  rw [List.mem_range'_1] at ha
  simp only [List.length_append, List.length_map]
  omega

theorem copyAlloc_reads {h : Heap} {addrs : List ℕ} :
    (copyAllocH h addrs).2.map (hread (copyAllocH h addrs).1) =
      (addrs.map (hread h)).map copyLot := by
  unfold copyAllocH
  have := map_hread_append (addrs.map (fun a => copyLot (hread h a))) h
  rw [List.length_map] at this
  rw [this, List.map_map]
  rfl

theorem sellFromLotsH_spec :
    ∀ (addrs : List ℕ) (h : Heap) (ts c : ℚ), addrs.Nodup →
      (∀ a ∈ addrs, a < h.length) →
      (sellFromLotsH h addrs ts c).1 =
          (sellFromLots (addrs.map (hread h)) ts c).1 ∧
        addrs.map (hread (sellFromLotsH h addrs ts c).2) =
          (sellFromLots (addrs.map (hread h)) ts c).2 ∧
        (∀ b, b ∉ addrs →
          hread (sellFromLotsH h addrs ts c).2 b = hread h b) ∧
        (sellFromLotsH h addrs ts c).2.length = h.length := by
  intro addrs
  induction addrs with
  | nil => exact fun h ts c _ _ => ⟨rfl, rfl, fun b _ => rfl, rfl⟩
  | cons a as ih =>
    intro h ts c hn hb
    have hna : a ∉ as := (List.nodup_cons.1 hn).1
    have hnas : as.Nodup := (List.nodup_cons.1 hn).2
    have hba : a < h.length := hb a (by simp)
    have hbas : ∀ x ∈ as, x < h.length := fun x hx => hb x (by simp [hx])
    unfold sellFromLotsH
    rw [List.map_cons]
    unfold sellFromLots
    by_cases h0 : ts ≤ 0
    · rw [if_pos h0, if_pos h0]
      exact ⟨rfl, rfl, fun b _ => rfl, rfl⟩
    · rw [if_neg h0, if_neg h0]
      by_cases ha : (hread h a).remaining.getD 0 ≤ 0
      · simp only [if_pos ha]
        obtain ⟨e1, e2, e3, e4⟩ := ih h ts c hnas hbas
        refine ⟨e1, ?_, fun b hbmem => e3 b (fun hc => hbmem (by simp [hc])),
          e4⟩
        rw [List.map_cons, e2, e3 a hna]
      · simp only [if_neg ha]
        set use := min ts ((hread h a).remaining.getD 0) with huse
        set h1 := h.set a
          { hread h a with remaining := some ((hread h a).remaining.getD 0 - use) }
          with hh1
        have hlen1 : h1.length = h.length := by
          rw [hh1]; exact List.length_set h a _
        have hreads : as.map (hread h1) = as.map (hread h) := by
          refine List.map_congr_left fun x hx => ?_
          exact hread_set_ne (fun hc => hna (hc ▸ hx))
        obtain ⟨e1, e2, e3, e4⟩ := ih h1 (ts - use) (c + use * (hread h a).price)
          hnas (fun x hx => hlen1 ▸ hbas x hx)
        rw [hreads] at e1 e2
        refine ⟨e1, ?_, ?_, by rw [e4, hlen1]⟩
        · rw [List.map_cons, e2, e3 a hna, hh1, hread_set_self hba]
        · intro b hbmem
          have hb1 : b ∉ as := fun hc => hbmem (by simp [hc])
          have hab : a ≠ b := fun hc => hbmem (by simp [hc])
          rw [e3 b hb1, hh1, hread_set_ne hab]

theorem planYearH_spec (fe il : Bool) (p g : ℚ) (h : Heap) (w : List ℕ)
    (ts : ℤ) (tr tt : ℚ) (y : ℕ) (hn : w.Nodup)
    (hb : ∀ a ∈ w, a < h.length) :
    (planYearH fe il p g h w ts tr tt y).1 =
        (planYear fe il p g (w.map (hread h)) ts tr tt y).1 ∧
      w.map (hread (planYearH fe il p g h w ts tr tt y).2.1) =
        (planYear fe il p g (w.map (hread h)) ts tr tt y).2.1 ∧
      (planYearH fe il p g h w ts tr tt y).2.2 =
        (planYear fe il p g (w.map (hread h)) ts tr tt y).2.2 ∧
      (∀ b, b ∉ w →
        hread (planYearH fe il p g h w ts tr tt y).2.1 b = hread h b) ∧
      (planYearH fe il p g h w ts tr tt y).2.1.length = h.length := by
  by_cases hav : get_total_available (w.map (hread h)) ≤ 0
  · rw [planYear_eq_exhausted hav]
    unfold planYearH
    rw [if_pos hav]
    exact ⟨rfl, rfl, rfl, fun b _ => rfl, rfl⟩
  · by_cases hu : 0 < plannedUnits fe il (w.map (hread h)) (p * (1 + g) ^ y)
    · rw [planYear_eq_sell hav hu]
      unfold planYearH
      rw [if_neg hav]
      simp only [if_pos hu]
      obtain ⟨e1, e2, e3, e4⟩ := sellFromLotsH_spec w h
        ((plannedUnits fe il (w.map (hread h)) (p * (1 + g) ^ y) : ℤ) : ℚ) 0
        hn hb
      rw [e1, e2]
      exact ⟨rfl, rfl, rfl, e3, e4⟩
    · rw [planYear_eq_skip hav hu]
      unfold planYearH
      rw [if_neg hav]
      simp only [if_neg hu]
      exact ⟨trivial, trivial, trivial, fun b _ => trivial, trivial⟩

theorem planGoH_spec (fe : Bool) (p g : ℚ) :
    ∀ (left : ℕ) (h : Heap) (w : List ℕ) (ts : ℤ) (tr tt : ℚ) (y : ℕ),
      w.Nodup → (∀ a ∈ w, a < h.length) →
      (planGoH fe p g h w ts tr tt y left).1 =
          planGo fe p g (w.map (hread h)) ts tr tt y left ∧
        (∀ b, b ∉ w →
          hread (planGoH fe p g h w ts tr tt y left).2 b = hread h b) ∧
        (planGoH fe p g h w ts tr tt y left).2.length = h.length := by
  intro left
  induction left with
  | zero => exact fun h w ts tr tt y _ _ => ⟨rfl, fun b _ => rfl, rfl⟩
  | succ m ih =>
    intro h w ts tr tt y hn hb
    obtain ⟨y1, y2, y3, y4, y5⟩ :=
      planYearH_spec fe (m == 0) p g h w ts tr tt y hn hb
    obtain ⟨g1, g2, g3⟩ := ih (planYearH fe (m == 0) p g h w ts tr tt y).2.1 w
      (planYearH fe (m == 0) p g h w ts tr tt y).2.2.1
      (planYearH fe (m == 0) p g h w ts tr tt y).2.2.2.1
      (planYearH fe (m == 0) p g h w ts tr tt y).2.2.2.2
      (y + 1) hn (fun a ha => y5 ▸ hb a ha)
    refine ⟨?_, ?_, ?_⟩
    · rw [planGo_succ]
      show (planYearH fe (m == 0) p g h w ts tr tt y).1 ::
          (planGoH fe p g (planYearH fe (m == 0) p g h w ts tr tt y).2.1 w
            (planYearH fe (m == 0) p g h w ts tr tt y).2.2.1
            (planYearH fe (m == 0) p g h w ts tr tt y).2.2.2.1
            (planYearH fe (m == 0) p g h w ts tr tt y).2.2.2.2
            (y + 1) m).1 = _
      rw [y1, g1, y2, y3]
    · intro b hbmem
      show hread (planGoH fe p g
          (planYearH fe (m == 0) p g h w ts tr tt y).2.1 w
          (planYearH fe (m == 0) p g h w ts tr tt y).2.2.1
          (planYearH fe (m == 0) p g h w ts tr tt y).2.2.2.1
          (planYearH fe (m == 0) p g h w ts tr tt y).2.2.2.2
          (y + 1) m).2 b = hread h b
      rw [g2 b hbmem, y4 b hbmem]
    · show (planGoH fe p g
          (planYearH fe (m == 0) p g h w ts tr tt y).2.1 w
          (planYearH fe (m == 0) p g h w ts tr tt y).2.2.1
          (planYearH fe (m == 0) p g h w ts tr tt y).2.2.2.1
          (planYearH fe (m == 0) p g h w ts tr tt y).2.2.2.2
          (y + 1) m).2.length = h.length
      rw [g3, y5]

/-- C9 (no mutation of the caller's ledger): `calculate_fifo_cost_basis`
performs no write in the source, so in the embedding it is a pure function
and two calls on the same ledger and quantity are literally the same value;
and over the explicit store, both planners first allocate `lot.copy()`
records at fresh addresses and write only there, so every record of the
caller's heap — in particular every lot of the caller's ledger `addrs` —
reads back unchanged after either planner runs, while the produced plan
agrees with the by-value embedding of the source run on the dereferenced
ledger. -/
theorem C9_no_mutation (h : Heap) (addrs : List ℕ) (p : ℚ) (N : ℕ)
    (g : ℚ) :
    (∀ q : ℚ, calculate_fifo_cost_basis (addrs.map (hread h)) q =
        calculate_fifo_cost_basis (addrs.map (hread h)) q) ∧
      (∀ a, a < h.length →
        hread (plan_multi_year_salesH h addrs p N g).2 a = hread h a) ∧
      (plan_multi_year_salesH h addrs p N g).1 =
        plan_multi_year_sales (addrs.map (hread h)) p N g ∧
      (∀ a, a < h.length →
        hread (plan_full_extractionH h addrs p N g).2 a = hread h a) ∧
      (plan_full_extractionH h addrs p N g).1 =
        plan_full_extraction (addrs.map (hread h)) p N g := by
  have hn : (copyAllocH h addrs).2.Nodup := List.nodup_range' h.length _
  have hfresh : ∀ a, a < h.length → a ∉ (copyAllocH h addrs).2 := by
    intro a ha hmem
    unfold copyAllocH at hmem
    rw [List.mem_range'_1] at hmem
    omega
  have hcopy : (copyAllocH h addrs).2.map (hread (copyAllocH h addrs).1) =
      (addrs.map (hread h)).map copyLot := copyAlloc_reads
  obtain ⟨m1, m2, _⟩ := planGoH_spec false p g N (copyAllocH h addrs).1
    (copyAllocH h addrs).2 0 0 0 0 hn copyAlloc_bounds
  obtain ⟨f1, f2, _⟩ := planGoH_spec true p g N (copyAllocH h addrs).1
    (copyAllocH h addrs).2 0 0 0 0 hn copyAlloc_bounds
  refine ⟨fun q => rfl, ?_, ?_, ?_, ?_⟩
  · intro a ha
    show hread (planGoH false p g (copyAllocH h addrs).1
      (copyAllocH h addrs).2 0 0 0 0 N).2 a = hread h a
    rw [m2 a (hfresh a ha)]
    exact hread_append_left ha
  · show (planGoH false p g (copyAllocH h addrs).1
      (copyAllocH h addrs).2 0 0 0 0 N).1 = _
    rw [m1, hcopy]
    rfl
  · intro a ha
    show hread (planGoH true p g (copyAllocH h addrs).1
      (copyAllocH h addrs).2 0 0 0 0 N).2 a = hread h a
    rw [f2 a (hfresh a ha)]
    exact hread_append_left ha
  · show (planGoH true p g (copyAllocH h addrs).1
      (copyAllocH h addrs).2 0 0 0 0 N).1 = _
    rw [f1, hcopy]
    rfl

theorem C9_no_mutation_witness :
    (0 : ℕ) < ([⟨1, 1, 1, none⟩] : Heap).length ∧
      hread (plan_multi_year_salesH [⟨1, 1, 1, none⟩] [0] 2 1 0).2 0 =
        hread [⟨1, 1, 1, none⟩] 0 :=
  ⟨by norm_num,
    (C9_no_mutation [⟨1, 1, 1, none⟩] [0] 2 1 0).2.1 0 (by norm_num)⟩
